import Mathlib

/-!
Verification of the Kakuro generator (C++ sources in src/cpp) against its
natural-language specification.  The development shallowly embeds the data
model and the operations of `kakuro_board.cpp`, `kakuro_solver.cpp` and
`kakuro_difficulty.cpp`:

* the topology phase works on a grid of cell types indexed by `Int`
  coordinates, exactly like the C++ `grid[r][c].type` field;
* the solver phase works on a board state holding the mutable per-cell
  fields (`value`, `clue_h`, `clue_v`, `type`) plus the static sector
  structure produced by `identify_sectors`;
* randomness (`std::mt19937` draws, `std::shuffle`, timing) is modelled by
  oracle parameters; all theorems quantify over every oracle, which covers
  every behaviour the C++ RNG can produce.

Machine integers are modelled by `Int`/`Nat` (all quantities involved stay
far below any overflow boundary: digits are 1..9, sums at most 45, node
counters bounded by the explicit budgets).
-/

namespace Kakuro

/-- Cell types, from `enum class CellType { BLOCK, WHITE }` in kakuro_cpp.h. -/
inductive CellT where
  | BLOCK
  | WHITE
deriving DecidableEq, Repr

/-- The topology phase only reads and writes the `type` field of cells, so a
grid is a function from (row, column) to a cell type.  Out-of-range
coordinates conceptually do not exist; all mutators bounds-check exactly as
the C++ does, so out-of-range positions keep their initial `BLOCK` value. -/
def TGrid : Type := Int → Int → CellT

/-- Writing the `type` field of the single cell `(r, c)`. -/
def updT (g : TGrid) (r c : Int) (t : CellT) : TGrid :=
  fun r0 c0 => if r0 = r ∧ c0 = c then t else g r0 c0

/-- `KakuroBoard::set_white` (kakuro_board.cpp): paints a cell WHITE only if
it lies in the interior `1 ≤ r < height-1`, `1 ≤ c < width-1`. -/
def setWhiteT (H W : Int) (g : TGrid) (r c : Int) : TGrid :=
  if 1 ≤ r ∧ r < H - 1 ∧ 1 ≤ c ∧ c < W - 1 then updT g r c CellT.WHITE else g

/-- `KakuroBoard::set_block`: `get_cell` bounds-checks `0 ≤ r < height`,
`0 ≤ c < width`; inside bounds the cell type becomes BLOCK (the C++ also
clears the value; values are not part of the topology-phase model). -/
def setBlockT (H W : Int) (g : TGrid) (r c : Int) : TGrid :=
  if 0 ≤ r ∧ r < H ∧ 0 ≤ c ∧ c < W then updT g r c CellT.BLOCK else g

/-- The symmetric pair of `set_white` calls used by `place_random_seed`,
`grow_lattice` and the bridge promotion in `try_remove_and_reconnect`:
`set_white(r, c); set_white(height-1-r, width-1-c);`. -/
def whitePairAt (H W : Int) (r c : Int) (g : TGrid) : TGrid :=
  setWhiteT H W (setWhiteT H W g r c) (H - 1 - r) (W - 1 - c)

/-- The symmetric pair of `set_block` calls used by `break_large_patches`,
`break_single_runs`, `fix_invalid_runs`, `ensure_connectivity` and
`block_sym`: `set_block(r, c); set_block(height-1-r, width-1-c);`. -/
def blockPairAt (H W : Int) (r c : Int) (g : TGrid) : TGrid :=
  setBlockT H W (setBlockT H W g r c) (H - 1 - r) (W - 1 - c)

/-- `KakuroBoard::stamp_rect(r, c, h, w)`: for every `0 ≤ i < h`,
`0 ≤ j < w` it calls `set_white(r+i, c+j)` and
`set_white(height-1-(r+i), width-1-(c+j))`. -/
def stampRect (H W : Int) (r c h w : Int) (g : TGrid) : TGrid :=
  (List.range h.toNat).foldl
    (fun g1 i =>
      (List.range w.toNat).foldl
        (fun g2 j => whitePairAt H W (r + Int.ofNat i) (c + Int.ofNat j) g2) g1)
    g

/-- `KakuroBoard::apply_slice(fixed_idx, start, length, is_horz)`: blocks the
middle cell of a run together with its central-symmetric partner. -/
def applySlice (H W : Int) (fixedIdx start len : Int) (isHorz : Bool)
    (g : TGrid) : TGrid :=
  let midOffset := len / 2
  let r := if isHorz then fixedIdx else start + midOffset
  let c := if isHorz then start + midOffset else fixedIdx
  blockPairAt H W r c g

/-- The direct pair of type writes in `try_remove_and_reconnect`:
`target->type = BLOCK; sym_target->type = BLOCK;`, guarded by
`get_cell(r, c)` being a WHITE cell (the symmetric partner of an in-bounds
cell is in bounds, so no guard appears on the second write in the C++). -/
def rawBlockPairAt (H W : Int) (r c : Int) (g : TGrid) : TGrid :=
  if (0 ≤ r ∧ r < H ∧ 0 ≤ c ∧ c < W) ∧ g r c = CellT.WHITE then
    updT (updT g r c CellT.BLOCK) (H - 1 - r) (W - 1 - c) CellT.BLOCK
  else g

/-- The grids reachable during `KakuroBoard::generate_topology`.  Every
attempt starts from the all-BLOCK grid (the reset loop at the top of the
attempt), and every subsequent mutation of the topology is one of:
a stamp (`stamp_rect`, used by the island seed and `generate_stamps`), a
slice (`apply_slice`, used by `slice_long_runs` and `slice_soft_runs`), a
symmetric white pair (seed placement, `grow_lattice`, bridge promotion), a
symmetric block pair (`break_large_patches`, `break_single_runs`,
`fix_invalid_runs`, `ensure_connectivity`, `block_sym`), or the raw
removal pair inside `try_remove_and_reconnect`.  The only other way the
grid changes is by restoring a snapshot taken earlier in the same attempt
(the revert in `try_remove_and_reconnect`), which returns to a grid that is
itself reachable, so reachability also covers the reverts. -/
inductive TopoReach (H W : Int) : TGrid → Prop where
  | init : TopoReach H W (fun _ _ => CellT.BLOCK)
  | stamp (r c h w : Int) {g : TGrid} :
      TopoReach H W g → TopoReach H W (stampRect H W r c h w g)
  | slice (fixedIdx start len : Int) (isHorz : Bool) {g : TGrid} :
      TopoReach H W g → TopoReach H W (applySlice H W fixedIdx start len isHorz g)
  | wpair (r c : Int) {g : TGrid} :
      TopoReach H W g → TopoReach H W (whitePairAt H W r c g)
  | bpair (r c : Int) {g : TGrid} :
      TopoReach H W g → TopoReach H W (blockPairAt H W r c g)
  | rawb (r c : Int) {g : TGrid} :
      TopoReach H W g → TopoReach H W (rawBlockPairAt H W r c g)

/-- Central symmetry of a grid (spec section 3): `(r, c)` is WHITE iff
`(H-1-r, W-1-c)` is WHITE. -/
def symmetricT (H W : Int) (g : TGrid) : Prop :=
  ∀ r c : Int, g r c = CellT.WHITE ↔ g (H - 1 - r) (W - 1 - c) = CellT.WHITE

lemma setWhiteT_white_iff (H W : Int) (g : TGrid) (r c a b : Int) :
    setWhiteT H W g r c a b = CellT.WHITE ↔
      ((1 ≤ r ∧ r < H - 1 ∧ 1 ≤ c ∧ c < W - 1) ∧ a = r ∧ b = c) ∨
        g a b = CellT.WHITE := by
  by_cases hg : 1 ≤ r ∧ r < H - 1 ∧ 1 ≤ c ∧ c < W - 1
  · by_cases hab : a = r ∧ b = c
    · simp [setWhiteT, updT, hg, hab]
    · simp [setWhiteT, updT, hg, hab]
  · simp [setWhiteT, hg]

lemma setBlockT_white_iff (H W : Int) (g : TGrid) (r c a b : Int) :
    setBlockT H W g r c a b = CellT.WHITE ↔
      g a b = CellT.WHITE ∧
        ¬((0 ≤ r ∧ r < H ∧ 0 ≤ c ∧ c < W) ∧ a = r ∧ b = c) := by
  by_cases hg : 0 ≤ r ∧ r < H ∧ 0 ≤ c ∧ c < W
  · by_cases hab : a = r ∧ b = c
    · simp [setBlockT, updT, hg, hab]
    · simp [setBlockT, updT, hg, hab]
  · simp [setBlockT, hg]

lemma whitePairAt_white_iff (H W : Int) (r c a b : Int) (g : TGrid) :
    whitePairAt H W r c g a b = CellT.WHITE ↔
      ((1 ≤ H - 1 - r ∧ H - 1 - r < H - 1 ∧ 1 ≤ W - 1 - c ∧ W - 1 - c < W - 1) ∧
          a = H - 1 - r ∧ b = W - 1 - c) ∨
        ((1 ≤ r ∧ r < H - 1 ∧ 1 ≤ c ∧ c < W - 1) ∧ a = r ∧ b = c) ∨
        g a b = CellT.WHITE := by
  unfold whitePairAt
  rw [setWhiteT_white_iff, setWhiteT_white_iff]

lemma blockPairAt_white_iff (H W : Int) (r c a b : Int) (g : TGrid) :
    blockPairAt H W r c g a b = CellT.WHITE ↔
      g a b = CellT.WHITE ∧
        ¬((0 ≤ r ∧ r < H ∧ 0 ≤ c ∧ c < W) ∧ a = r ∧ b = c) ∧
        ¬((0 ≤ H - 1 - r ∧ H - 1 - r < H ∧ 0 ≤ W - 1 - c ∧ W - 1 - c < W) ∧
            a = H - 1 - r ∧ b = W - 1 - c) := by
  unfold blockPairAt
  rw [setBlockT_white_iff, setBlockT_white_iff]
  tauto

lemma symmetricT_whitePairAt {H W : Int} {g : TGrid}
    (hs : symmetricT H W g) (r c : Int) :
    symmetricT H W (whitePairAt H W r c g) := by
  intro a b
  rw [whitePairAt_white_iff, whitePairAt_white_iff]
  have hgg : g a b = CellT.WHITE ↔ g (H - 1 - a) (W - 1 - b) = CellT.WHITE :=
    hs a b
  constructor
  · rintro (⟨hg, ha, hb⟩ | ⟨hg, ha, hb⟩ | hw)
    · right; left
      refine ⟨by omega, by omega, by omega⟩
    · left
      refine ⟨by omega, by omega, by omega⟩
    · right; right; exact hgg.mp hw
  · rintro (⟨hg, ha, hb⟩ | ⟨hg, ha, hb⟩ | hw)
    · right; left
      refine ⟨by omega, by omega, by omega⟩
    · left
      refine ⟨by omega, by omega, by omega⟩
    · right; right; exact hgg.mpr hw

lemma symmetricT_blockPairAt {H W : Int} {g : TGrid}
    (hs : symmetricT H W g) (r c : Int) :
    symmetricT H W (blockPairAt H W r c g) := by
  intro a b
  rw [blockPairAt_white_iff, blockPairAt_white_iff]
  have hgg : g a b = CellT.WHITE ↔ g (H - 1 - a) (W - 1 - b) = CellT.WHITE :=
    hs a b
  constructor
  · rintro ⟨hw, h1, h2⟩
    refine ⟨hgg.mp hw, ?_, ?_⟩
    · rintro ⟨hg, ha, hb⟩
      exact h2 ⟨by omega, by omega, by omega⟩
    · rintro ⟨hg, ha, hb⟩
      exact h1 ⟨by omega, by omega, by omega⟩
  · rintro ⟨hw, h1, h2⟩
    refine ⟨hgg.mpr hw, ?_, ?_⟩
    · rintro ⟨hg, ha, hb⟩
      exact h2 ⟨by omega, by omega, by omega⟩
    · rintro ⟨hg, ha, hb⟩
      exact h1 ⟨by omega, by omega, by omega⟩

lemma rawBlockPairAt_white_iff (H W : Int) (r c a b : Int) (g : TGrid)
    (hg : (0 ≤ r ∧ r < H ∧ 0 ≤ c ∧ c < W) ∧ g r c = CellT.WHITE) :
    rawBlockPairAt H W r c g a b = CellT.WHITE ↔
      g a b = CellT.WHITE ∧ ¬(a = r ∧ b = c) ∧
        ¬(a = H - 1 - r ∧ b = W - 1 - c) := by
  by_cases h2 : a = H - 1 - r ∧ b = W - 1 - c
  · simp [rawBlockPairAt, updT, hg, h2]
  · by_cases h1 : a = r ∧ b = c
    · simp [rawBlockPairAt, updT, hg, h1, h2]
    · simp [rawBlockPairAt, updT, hg, h1, h2]

lemma symmetricT_rawBlockPairAt {H W : Int} {g : TGrid}
    (hs : symmetricT H W g) (r c : Int) :
    symmetricT H W (rawBlockPairAt H W r c g) := by
  intro a b
  by_cases hg : (0 ≤ r ∧ r < H ∧ 0 ≤ c ∧ c < W) ∧ g r c = CellT.WHITE
  · rw [rawBlockPairAt_white_iff H W r c a b g hg,
      rawBlockPairAt_white_iff H W r c (H - 1 - a) (W - 1 - b) g hg]
    have hgg : g a b = CellT.WHITE ↔ g (H - 1 - a) (W - 1 - b) = CellT.WHITE :=
      hs a b
    constructor
    · rintro ⟨hw, h1, h2⟩
      refine ⟨hgg.mp hw, ?_, ?_⟩
      · rintro ⟨ha, hb⟩; exact h2 ⟨by omega, by omega⟩
      · rintro ⟨ha, hb⟩; exact h1 ⟨by omega, by omega⟩
    · rintro ⟨hw, h1, h2⟩
      refine ⟨hgg.mpr hw, ?_, ?_⟩
      · rintro ⟨ha, hb⟩; exact h2 ⟨by omega, by omega⟩
      · rintro ⟨ha, hb⟩; exact h1 ⟨by omega, by omega⟩
  · unfold rawBlockPairAt
    rw [if_neg hg]
    exact hs a b

lemma symmetricT_foldl {H W : Int} {α : Type} (f : TGrid → α → TGrid)
    (hf : ∀ g i, symmetricT H W g → symmetricT H W (f g i)) :
    ∀ (l : List α) (g : TGrid), symmetricT H W g →
      symmetricT H W (List.foldl f g l) := by
  intro l
  induction l with
  | nil => intro g hg; exact hg
  | cons i rest ih =>
    intro g hg
    rw [List.foldl_cons]
    exact ih _ (hf g i hg)

lemma symmetricT_stampRect {H W : Int} {g : TGrid}
    (hs : symmetricT H W g) (r c h w : Int) :
    symmetricT H W (stampRect H W r c h w g) := by
  unfold stampRect
  apply symmetricT_foldl _ ?_ _ _ hs
  intro g1 i hg1
  apply symmetricT_foldl _ ?_ _ _ hg1
  intro g2 j hg2
  exact symmetricT_whitePairAt hg2 _ _

lemma symmetricT_applySlice {H W : Int} {g : TGrid}
    (hs : symmetricT H W g) (fixedIdx start len : Int) (isHorz : Bool) :
    symmetricT H W (applySlice H W fixedIdx start len isHorz g) := by
  unfold applySlice
  exact symmetricT_blockPairAt hs _ _

/-- C1: Central symmetry is an invariant of topology generation.  Every
topology mutation performed during `generate_topology` (stamping, slicing
long runs, breaking patches, pruning singles, removing components) blocks
or whitens a cell together with its central-symmetric partner, so every
grid reachable during `generate_topology` — in particular every grid on
which it returns `true` — satisfies: cell `(r, c)` is WHITE iff cell
`(H-1-r, W-1-c)` is WHITE. -/
theorem topo_reachable_central_symmetry {H W : Int} {g : TGrid}
    (hg : TopoReach H W g) (r c : Int) :
    g r c = CellT.WHITE ↔ g (H - 1 - r) (W - 1 - c) = CellT.WHITE := by
  have hsym : symmetricT H W g := by
    induction hg with
    | init => intro a b; exact Iff.rfl
    | stamp r0 c0 h0 w0 _ ih => exact symmetricT_stampRect ih r0 c0 h0 w0
    | slice f0 s0 l0 hz _ ih => exact symmetricT_applySlice ih f0 s0 l0 hz
    | wpair r0 c0 _ ih => exact symmetricT_whitePairAt ih r0 c0
    | bpair r0 c0 _ ih => exact symmetricT_blockPairAt ih r0 c0
    | rawb r0 c0 _ ih => exact symmetricT_rawBlockPairAt ih r0 c0
  exact hsym r c

/-- Witness for C1 at a concrete reachable grid: a 2x2 stamp at (1,1) on a
5x5 board, evaluated at (1,1) and its partner (3,3). -/
theorem topo_reachable_central_symmetry_witness :
    (stampRect 5 5 1 1 2 2 (fun _ _ => CellT.BLOCK) 1 1 = CellT.WHITE ↔
      stampRect 5 5 1 1 2 2 (fun _ _ => CellT.BLOCK) 3 3 = CellT.WHITE) ∧
    stampRect 5 5 1 1 2 2 (fun _ _ => CellT.BLOCK) 1 1 = CellT.WHITE := by
  constructor
  · exact topo_reachable_central_symmetry
      (TopoReach.stamp 1 1 2 2 TopoReach.init) 1 1
  · decide

/-! ### Topology validators and stabilization passes (kakuro_board.cpp)

These embed the functions with which `generate_topology` stabilizes and then
accepts a candidate grid.  A C++ loop `for (int x = a; x < b; ++x)` becomes a
fold over `loopInts a b`. -/

/-- The list of `Int` values visited by `for (int x = a; x < b; ++x)`. -/
def loopInts (a b : Int) : List Int :=
  (List.range (b - a).toNat).map (fun i => a + Int.ofNat i)

/-- `KakuroBoard::slice_long_runs(max_len)`: scans every row (then every
column), tracking the current run of WHITE cells; when a run longer than
`max_len` ends (or the row/column ends), it is sliced in the middle by
`apply_slice`.  The grid is mutated during the scan, exactly as in the C++.
Returns the final grid and the `changed` flag. -/
def sliceLongRuns (H W maxLen : Int) (g0 : TGrid) : TGrid × Bool :=
  let hres := (loopInts 1 (H - 1)).foldl
    (fun (st : TGrid × Bool) r =>
      let inner := (loopInts 1 W).foldl
        (fun (st2 : TGrid × Bool × Int × Int) c =>
          let (g, ch, len, runStart) := st2
          if g r c = CellT.WHITE then
            (g, ch, len + 1, if runStart = -1 then c else runStart)
          else
            if len > maxLen then
              (applySlice H W r runStart len true g, true, 0, -1)
            else (g, ch, 0, -1))
        (st.1, st.2, 0, -1)
      let (g, ch, len, runStart) := inner
      if len > maxLen then (applySlice H W r runStart len true g, true)
      else (g, ch))
    (g0, false)
  (loopInts 1 (W - 1)).foldl
    (fun (st : TGrid × Bool) c =>
      let inner := (loopInts 1 H).foldl
        (fun (st2 : TGrid × Bool × Int × Int) r =>
          let (g, ch, len, runStart) := st2
          if g r c = CellT.WHITE then
            (g, ch, len + 1, if runStart = -1 then r else runStart)
          else
            if len > maxLen then
              (applySlice H W c runStart len false g, true, 0, -1)
            else (g, ch, 0, -1))
        (st.1, st.2, 0, -1)
      let (g, ch, len, runStart) := inner
      if len > maxLen then (applySlice H W c runStart len false g, true)
      else (g, ch))
    hres

/-- One directional walk of consecutive WHITE cells, as in the `while`
loops of `break_single_runs` (`while (check_c >= 0 && WHITE)` etc.).  The
fuel is chosen large enough that the walk is only ever stopped by the
bounds predicate or a non-WHITE cell. -/
def countRun (g : TGrid) (ok : Int → Int → Bool) (dr dc : Int) :
    Nat → Int → Int → Nat
  | 0, _, _ => 0
  | fuel + 1, r, c =>
    if ok r c ∧ g r c = CellT.WHITE then
      1 + countRun g ok dr dc fuel (r + dr) (c + dc)
    else 0

/-- One full sweep of the nested `for` loops of
`KakuroBoard::break_single_runs`: every interior WHITE cell whose
horizontal run length or vertical run length is 1 is blocked together with
its symmetric partner; mutations are visible to the rest of the sweep. -/
def breakSingleRunsPass (H W : Int) (g0 : TGrid) : TGrid × Bool :=
  (loopInts 1 (H - 1)).foldl
    (fun st r =>
      (loopInts 1 (W - 1)).foldl
        (fun (st2 : TGrid × Bool) c =>
          let (g, ch) := st2
          if g r c = CellT.WHITE then
            let hLen : Nat := 1 +
              countRun g (fun _ cc => decide (0 ≤ cc)) 0 (-1) W.toNat r (c - 1) +
              countRun g (fun _ cc => decide (cc < W)) 0 1 W.toNat r (c + 1)
            let vLen : Nat := 1 +
              countRun g (fun rr _ => decide (0 ≤ rr)) (-1) 0 H.toNat (r - 1) c +
              countRun g (fun rr _ => decide (rr < H)) 1 0 H.toNat (r + 1) c
            if hLen = 1 ∨ vLen = 1 then (blockPairAt H W r c g, true)
            else (g, ch)
          else (g, ch))
        st)
    (g0, false)

/-- The `while (changed)` loop of `break_single_runs`, with fuel bounding
the number of sweeps (each changing sweep blocks at least one WHITE cell,
so `H*W + 1` sweeps always reach the fixpoint).  Returns the final grid and
the `any_change` flag. -/
def bsrLoop (H W : Int) : Nat → TGrid → Bool → TGrid × Bool
  | 0, g, anyChange => (g, anyChange)
  | fuel + 1, g, anyChange =>
    let (g', ch) := breakSingleRunsPass H W g
    if ch then bsrLoop H W fuel g' true else (g', anyChange)

/-- `KakuroBoard::break_single_runs`. -/
def breakSingleRuns (H W : Int) (g : TGrid) : TGrid × Bool :=
  bsrLoop H W ((H * W).toNat + 1) g false

/-- `KakuroBoard::collect_white_cells`: the row-major list of WHITE cells. -/
def collectWhites (H W : Int) (g : TGrid) : List (Int × Int) :=
  (loopInts 0 H).foldr
    (fun r acc =>
      ((loopInts 0 W).filter (fun c => decide (g r c = CellT.WHITE))).map
        (fun c => (r, c)) ++ acc)
    []

/-- The BFS of `KakuroBoard::check_connectivity`: pop from the queue,
count, push unvisited WHITE 4-neighbours in the order
`dr = {0,0,1,-1}`, `dc = {1,-1,0,0}`. -/
def bfsCount (H W : Int) (g : TGrid) :
    Nat → List (Int × Int) → List (Int × Int) → Nat → Nat
  | 0, _, _, count => count
  | _, [], _, count => count
  | fuel + 1, (r, c) :: rest, visited, count =>
    let step := fun (st : List (Int × Int) × List (Int × Int)) (d : Int × Int) =>
      let n := (r + d.1, c + d.2)
      if (0 ≤ n.1 ∧ n.1 < H ∧ 0 ≤ n.2 ∧ n.2 < W) ∧ g n.1 n.2 = CellT.WHITE ∧
          n ∉ st.2 then
        (st.1 ++ [n], st.2 ++ [n])
      else st
    let dirs : List (Int × Int) := [(0, 1), (0, -1), (1, 0), (-1, 0)]
    let (q', vis') := dirs.foldl step (rest, visited)
    bfsCount H W g fuel q' vis' (count + 1)

/-- `KakuroBoard::check_connectivity`: false on an empty WHITE set,
otherwise BFS from the first WHITE cell must reach every WHITE cell. -/
def checkConnectivity (H W : Int) (g : TGrid) : Bool :=
  let whites := collectWhites H W g
  match whites with
  | [] => false
  | w0 :: _ =>
    decide (bfsCount H W g (whites.length + 1) [w0] [w0] 0 = whites.length)

/-- `KakuroBoard::validate_clue_headers`: every WHITE cell whose left
(resp. upper) neighbour is not WHITE must have an in-grid BLOCK there. -/
def validateClueHeaders (H W : Int) (g : TGrid) : Bool :=
  (loopInts 0 H).all fun r => (loopInts 0 W).all fun c =>
    if g r c = CellT.WHITE then
      (if c = 0 ∨ g r (c - 1) ≠ CellT.WHITE then
        decide (¬(c = 0 ∨ g r (c - 1) ≠ CellT.BLOCK)) else true) &&
      (if r = 0 ∨ g (r - 1) c ≠ CellT.WHITE then
        decide (¬(r = 0 ∨ g (r - 1) c ≠ CellT.BLOCK)) else true)
    else true

/-- The horizontal part of `KakuroBoard::identify_sectors`: per row, the
maximal runs of WHITE cells in scan order. -/
def sectorsHOf (H W : Int) (g : TGrid) : List (List (Int × Int)) :=
  (loopInts 0 H).foldr
    (fun r acc =>
      let rowres := (loopInts 0 W).foldl
        (fun (st : List (List (Int × Int)) × List (Int × Int)) c =>
          if g r c = CellT.WHITE then (st.1, st.2 ++ [(r, c)])
          else if st.2 = [] then st else (st.1 ++ [st.2], []))
        ([], [])
      (if rowres.2 = [] then rowres.1 else rowres.1 ++ [rowres.2]) ++ acc)
    []

/-- The vertical part of `KakuroBoard::identify_sectors`. -/
def sectorsVOf (H W : Int) (g : TGrid) : List (List (Int × Int)) :=
  (loopInts 0 W).foldr
    (fun c acc =>
      let colres := (loopInts 0 H).foldl
        (fun (st : List (List (Int × Int)) × List (Int × Int)) r =>
          if g r c = CellT.WHITE then (st.1, st.2 ++ [(r, c)])
          else if st.2 = [] then st else (st.1 ++ [st.2], []))
        ([], [])
      (if colres.2 = [] then colres.1 else colres.1 ++ [colres.2]) ++ acc)
    []

/-- `KakuroBoard::validate_topology_structure`: every non-empty sector must
be preceded by an in-grid BLOCK cell, and no BLOCK cell may carry an
orphaned clue.  `clueH`/`clueV` are the clue fields of the grid; during
topology generation they are all unset (the attempt loop clears them).
For the horizontal orphan test the C++ scans to the right but stops at the
first cell, which is either WHITE (found) or BLOCK (break), so the scan is
equivalent to inspecting the immediate right neighbour. -/
def validateTopologyStructure (H W : Int) (g : TGrid)
    (clueH clueV : Int → Int → Option Int) : Bool :=
  ((sectorsHOf H W g).all fun sec =>
    match sec with
    | [] => true
    | first :: _ =>
      if first.2 - 1 < 0 ∨ first.2 - 1 ≥ W then false
      else decide (g first.1 (first.2 - 1) = CellT.BLOCK)) &&
  ((sectorsVOf H W g).all fun sec =>
    match sec with
    | [] => true
    | first :: _ =>
      if first.1 - 1 < 0 ∨ first.1 - 1 ≥ H then false
      else decide (g (first.1 - 1) first.2 = CellT.BLOCK)) &&
  ((loopInts 0 H).all fun r => (loopInts 0 W).all fun c =>
    if g r c ≠ CellT.BLOCK then true
    else
      (match clueH r c with
        | none => true
        | some _ => decide (c + 1 < W ∧ g r (c + 1) = CellT.WHITE)) &&
      (match clueV r c with
        | none => true
        | some _ => decide (r + 1 < H ∧ g (r + 1) c = CellT.WHITE)))

/-- The concrete 5x14 grid reached by `generate_topology` in island mode
with `stamps = [(2,10)]`, `num_stamps = 1` and `max_run_len = 12`: the
initial center 2x2 stamp at `(height/2 - 1, width/2 - 1) = (1, 6)`,
followed by one `(2,10)` stamp at `top_r = 1`, `left_c = 2` (anchor
`(1,6)`, offsets `(0,-4)`), which passes the bounds check
`top_r >= 1 && left_c >= 1 && top_r + h < height-1 && left_c + w < width-1`.
The union with the symmetric images is the full rectangle of rows 1..3 and
columns 2..11 — thirty WHITE cells whose horizontal runs have length 10. -/
def overlongGrid : TGrid :=
  stampRect 5 14 1 2 2 10 (stampRect 5 14 1 6 2 2 (fun _ _ => CellT.BLOCK))

set_option maxRecDepth 100000 in
/-- C7 (code bug): `generate_topology` accepts grids containing maximal
WHITE runs longer than 9.  On `overlongGrid` every stabilization pass of
the island-mode loop is already at its fixpoint (`slice_long_runs(12)` and
`break_single_runs` report no change; no WHITE cell lacks a horizontal or
vertical neighbour, so `prune_singles` has nothing to do; the WHITE set is
one 4-connected component, so `ensure_connectivity` has nothing to do; a
5x5 board has no room for a `break_large_patches` window), and the final
validation — white count at least `min_cells = 12`, connectivity, clue
headers, structure — accepts the grid even though its row sectors have
length 10, contradicting the `[2, 9]` sector-length invariant. -/
theorem generate_topology_accepts_overlong_run :
    (sliceLongRuns 5 14 12 overlongGrid).2 = false ∧
    (breakSingleRuns 5 14 overlongGrid).2 = false ∧
    validateClueHeaders 5 14 overlongGrid = true ∧
    checkConnectivity 5 14 overlongGrid = true ∧
    validateTopologyStructure 5 14 overlongGrid
      (fun _ _ => none) (fun _ _ => none) = true ∧
    (collectWhites 5 14 overlongGrid).length = 30 ∧
    (∃ s ∈ sectorsHOf 5 14 overlongGrid, 9 < s.length) ∧
    (collectWhites 5 14 overlongGrid).all (fun p =>
      decide ((overlongGrid p.1 (p.2 - 1) = CellT.WHITE ∨
               overlongGrid p.1 (p.2 + 1) = CellT.WHITE) ∧
              (overlongGrid (p.1 - 1) p.2 = CellT.WHITE ∨
               overlongGrid (p.1 + 1) p.2 = CellT.WHITE))) = true := by
  decide

/-! ### Solver board model (kakuro_solver.cpp)

Cells are identified by their coordinates (`Cell*` pointers in the C++).
`BStatic` is the sector structure built by `identify_sectors` (the
`sector_h`/`sector_v` pointers of each cell and the `sectors_h`/`sectors_v`
lists of the board); `BState` holds the mutable per-cell fields. -/

/-- A cell position `(r, c)`, standing for the `Cell*` of the C++. -/
abbrev Pos : Type := Int × Int

/-- The sector structure of a board, fixed while the solver runs. -/
structure BStatic where
  whiteCells : List Pos
  sectorH : Pos → Option (List Pos)
  sectorV : Pos → Option (List Pos)
  sectorsH : List (List Pos)
  sectorsV : List (List Pos)

/-- The mutable per-cell fields: `value`, `clue_h`, `clue_v`, `type`. -/
structure BState where
  value : Pos → Option Nat
  clueH : Pos → Option Int
  clueV : Pos → Option Int
  ctype : Pos → CellT

/-- Writing the `value` field of one cell. -/
def setVal (st : BState) (p : Pos) (v : Option Nat) : BState :=
  { st with value := fun q => if q = p then v else st.value q }

/-- The effective digit the consistency test reads for a cell, from
`is_valid_move`: `if (assignment && assignment->count(p)) v = assignment->at(p);
else if (p->value.has_value()) v = *p->value;` (0 when neither is set). -/
def effValue (st : BState) (assignment : Option (Pos → Option Nat)) (p : Pos) :
    Nat :=
  match assignment with
  | some a =>
    match a p with
    | some w => w
    | none => (st.value p).getD 0
  | none => (st.value p).getD 0

/-- The scan over a sector's cells in `is_valid_move`: skip the proposed
cell, read each cell's effective digit, fail on a duplicate of `val`, and
accumulate `(sum, used_mask, filled_count)`. -/
def scanGo (eff : Pos → Nat) (cell : Pos) (val : Nat) :
    List Pos → Nat × Nat × Nat → Option (Nat × Nat × Nat)
  | [], acc => some acc
  | p :: rest, acc =>
    if p = cell then scanGo eff cell val rest acc
    else
      if 0 < eff p then
        if eff p = val then none
        else
          scanGo eff cell val rest
            (acc.1 + eff p, acc.2.1 ||| (1 <<< eff p), acc.2.2 + 1)
      else scanGo eff cell val rest acc

/-- The digits 1..9 in the order of the C++ loop `for (int i = 1; i <= 9; ++i)`. -/
def ascDigits : List Nat := [1, 2, 3, 4, 5, 6, 7, 8, 9]

/-- The digits in the order of the loop `for (int i = 9; i >= 1; --i)`. -/
def descDigits : List Nat := [9, 8, 7, 6, 5, 4, 3, 2, 1]

/-- The accumulation loops of `is_valid_move` computing `min_rem`/`max_rem`:
walk the digits in the given order, adding each digit that is not in
`used_mask` (`!(used_mask & (1 << i))`, read here as `testBit`) until `k`
digits have been taken. -/
def lowSumGo (mask k : Nat) : List Nat → Nat × Nat → Nat × Nat
  | [], st => st
  | i :: rest, st =>
    if st.2 < k ∧ ¬mask.testBit i then lowSumGo mask k rest (st.1 + i, st.2 + 1)
    else lowSumGo mask k rest st

/-- `min_rem`: the sum of the `k` smallest digits not in `mask`. -/
def lowSum (mask k : Nat) : Nat := (lowSumGo mask k ascDigits (0, 0)).1

/-- `max_rem`: the sum of the `k` largest digits not in `mask`. -/
def highSum (mask k : Nat) : Nat := (lowSumGo mask k descDigits (0, 0)).1

/-- The per-sector lambda `check_sector` of `CSPSolver::is_valid_move`:
duplicate check, then (unless `ignore_clues`) the clue lookup from the cell
preceding the sector's first cell and the sum-feasibility checks. -/
def checkSector (st : BState) (eff : Pos → Nat) (cell : Pos) (val : Nat)
    (sector : Option (List Pos)) (isHorz : Bool) (ignoreClues : Bool) : Bool :=
  match sector with
  | none => true
  | some [] => true
  | some (first :: rest) =>
    match scanGo eff cell val (first :: rest) (val, 1 <<< val, 1) with
    | none => false
    | some (sum, usedMask, filled) =>
      if ignoreClues then true
      else
        let clueR := if isHorz then first.1 else first.1 - 1
        let clueC := if isHorz then first.2 - 1 else first.2
        if clueR < 0 ∨ clueC < 0 then false
        else
          match (if isHorz then st.clueH (clueR, clueC)
                 else st.clueV (clueR, clueC)) with
          | none => false
          | some target =>
            let remaining : Int := ((first :: rest).length : Int) - (filled : Int)
            if (sum : Int) > target then false
            else if remaining > 0 then
              if ((sum + lowSum usedMask remaining.toNat : Nat) : Int) > target ∨
                  ((sum + highSum usedMask remaining.toNat : Nat) : Int) < target
              then false
              else true
            else if (sum : Int) ≠ target then false
            else true

/-- `CSPSolver::is_valid_move`: both sector checks must pass. -/
def isValidMove (B : BStatic) (st : BState)
    (assignment : Option (Pos → Option Nat)) (cell : Pos) (val : Nat)
    (ignoreClues : Bool) : Bool :=
  checkSector st (effValue st assignment) cell val (B.sectorH cell) true
      ignoreClues &&
    checkSector st (effValue st assignment) cell val (B.sectorV cell) false
      ignoreClues

/-- `CSPSolver::get_domain_size`: the number of digits 1..9 accepted by
`is_valid_move`. -/
def getDomainSize (B : BStatic) (st : BState)
    (assignment : Option (Pos → Option Nat)) (cell : Pos)
    (ignoreClues : Bool) : Nat :=
  (ascDigits.filter (fun v => isValidMove B st assignment cell v ignoreClues)).length

/-- `CSPSolver::is_consistent_number`: with `ignore_clues` a plain duplicate
check against both the assignment and the committed values (two independent
tests in the C++); otherwise the full `is_valid_move`. -/
def isConsistentNumber (B : BStatic) (st : BState)
    (assignment : Pos → Option Nat) (var : Pos) (value : Nat)
    (ignoreClues : Bool) : Bool :=
  if ignoreClues then
    let hasDupe := fun (sector : Option (List Pos)) =>
      match sector with
      | none => false
      | some cells =>
        cells.any fun p =>
          if p = var then false
          else
            (assignment p == some value) || (st.value p == some value)
    !hasDupe (B.sectorH var) && !hasDupe (B.sectorV var)
  else isValidMove B st (some assignment) var value ignoreClues

/-! ### Characterizations of the sector scan and the min/max digit sums -/

/-- One accumulation step of the sector scan (a filled cell contributes its
digit to the sum, its bit to the mask, and one to the filled count). -/
def scanStep (eff : Pos → Nat) (a : Nat × Nat × Nat) (p : Pos) : Nat × Nat × Nat :=
  (a.1 + eff p, a.2.1 ||| (1 <<< eff p), a.2.2 + 1)

lemma exists_cons_drop {α : Type} (p : α) (rest : List α) (P : α → Prop)
    (hp : ¬P p) : (∃ q ∈ p :: rest, P q) ↔ (∃ q ∈ rest, P q) := by
  constructor
  · rintro ⟨q, hq, h⟩
    rcases List.mem_cons.mp hq with rfl | hq2
    · exact absurd h hp
    · exact ⟨q, hq2, h⟩
  · rintro ⟨q, hq, h⟩
    exact ⟨q, List.mem_cons_of_mem p hq, h⟩

lemma scanGo_eq (eff : Pos → Nat) (cell : Pos) (val : Nat) :
    ∀ (l : List Pos) (acc : Nat × Nat × Nat),
      scanGo eff cell val l acc =
        if ∃ p ∈ l, p ≠ cell ∧ 0 < eff p ∧ eff p = val then none
        else some ((l.filter fun p => decide (p ≠ cell ∧ 0 < eff p)).foldl
          (scanStep eff) acc) := by
  intro l
  induction l with
  | nil => intro acc; simp [scanGo]
  | cons p rest ih =>
    intro acc
    by_cases hp : p = cell
    · have hiff := exists_cons_drop p rest
        (fun q => q ≠ cell ∧ 0 < eff q ∧ eff q = val) (fun h => h.1 hp)
      have hfilter : ((p :: rest).filter fun q => decide (q ≠ cell ∧ 0 < eff q)) =
          rest.filter fun q => decide (q ≠ cell ∧ 0 < eff q) := by
        rw [List.filter_cons]
        simp [hp]
      simp only [scanGo, if_pos hp, ih, hfilter, hiff]
    · by_cases hpos : 0 < eff p
      · by_cases hval : eff p = val
        · have hex : ∃ q ∈ p :: rest, q ≠ cell ∧ 0 < eff q ∧ eff q = val :=
            ⟨p, List.mem_cons_self p rest, hp, hpos, hval⟩
          simp only [scanGo, if_neg hp, if_pos hpos, if_pos hval, if_pos hex]
        · have hiff := exists_cons_drop p rest
            (fun q => q ≠ cell ∧ 0 < eff q ∧ eff q = val) (fun h => hval h.2.2)
          have hfilter :
              ((p :: rest).filter fun q => decide (q ≠ cell ∧ 0 < eff q)) =
                p :: (rest.filter fun q => decide (q ≠ cell ∧ 0 < eff q)) := by
            rw [List.filter_cons]
            simp [hp, hpos]
          simp only [scanGo, if_neg hp, if_pos hpos, if_neg hval, ih, hfilter,
            hiff, List.foldl_cons]
          rfl
      · have hiff := exists_cons_drop p rest
          (fun q => q ≠ cell ∧ 0 < eff q ∧ eff q = val) (fun h => hpos h.2.1)
        have hfilter :
            ((p :: rest).filter fun q => decide (q ≠ cell ∧ 0 < eff q)) =
              rest.filter fun q => decide (q ≠ cell ∧ 0 < eff q) := by
          rw [List.filter_cons]
          simp [hpos]
        simp only [scanGo, if_neg hp, if_neg hpos, ih, hfilter, hiff]

lemma scanFold_sum (eff : Pos → Nat) :
    ∀ (l : List Pos) (acc : Nat × Nat × Nat),
      (l.foldl (scanStep eff) acc).1 = acc.1 + (l.map eff).sum := by
  intro l
  induction l with
  | nil => intro acc; simp
  | cons p rest ih =>
    intro acc
    simp only [List.foldl_cons, List.map_cons, List.sum_cons, ih, scanStep]
    ring

lemma scanFold_cnt (eff : Pos → Nat) :
    ∀ (l : List Pos) (acc : Nat × Nat × Nat),
      (l.foldl (scanStep eff) acc).2.2 = acc.2.2 + l.length := by
  intro l
  induction l with
  | nil => intro acc; simp
  | cons p rest ih =>
    intro acc
    simp only [List.foldl_cons, List.length_cons, ih, scanStep]
    ring

lemma scanFold_mask (eff : Pos → Nat) :
    ∀ (l : List Pos) (acc : Nat × Nat × Nat) (d : Nat),
      ((l.foldl (scanStep eff) acc).2.1).testBit d =
        (acc.2.1.testBit d || decide (∃ p ∈ l, eff p = d)) := by
  intro l
  induction l with
  | nil => intro acc d; simp
  | cons p rest ih =>
    intro acc d
    simp only [List.foldl_cons, ih, scanStep, Nat.testBit_or,
      Nat.one_shiftLeft, Nat.testBit_two_pow, List.exists_mem_cons_iff]
    by_cases hpd : eff p = d <;>
      by_cases hrest : ∃ q ∈ rest, eff q = d <;>
        simp [hpd, hrest]

lemma lowSumGo_cons (mask k i a t : Nat) (rest : List Nat) :
    lowSumGo mask k (i :: rest) (a, t) =
      if t < k ∧ ¬mask.testBit i then lowSumGo mask k rest (a + i, t + 1)
      else lowSumGo mask k rest (a, t) := rfl

lemma lowSumGo_fst (mask k : Nat) :
    ∀ (l : List Nat) (a t : Nat),
      (lowSumGo mask k l (a, t)).1 =
        a + ((l.filter fun i => !mask.testBit i).take (k - t)).sum := by
  intro l
  induction l with
  | nil => intro a t; simp [lowSumGo]
  | cons i rest ih =>
    intro a t
    rw [lowSumGo_cons]
    by_cases hbit : mask.testBit i
    · have hfil : ((i :: rest).filter fun j => !mask.testBit j) =
          rest.filter fun j => !mask.testBit j := by
        rw [List.filter_cons]
        simp [hbit]
      rw [if_neg (by tauto), ih, hfil]
    · have hfil : ((i :: rest).filter fun j => !mask.testBit j) =
          i :: (rest.filter fun j => !mask.testBit j) := by
        rw [List.filter_cons]
        simp [hbit]
      by_cases htk : t < k
      · rw [if_pos ⟨htk, hbit⟩, ih, hfil]
        have hk : k - t = (k - (t + 1)) + 1 := by omega
        rw [hk, List.take_succ_cons, List.sum_cons]
        omega
      · have hk0 : k - t = 0 := by omega
        rw [if_neg (by tauto), ih, hfil, hk0]
        simp

lemma lowSum_take (mask k : Nat) :
    lowSum mask k = ((ascDigits.filter fun i => !mask.testBit i).take k).sum := by
  unfold lowSum
  rw [lowSumGo_fst]
  simp

lemma highSum_take (mask k : Nat) :
    highSum mask k = ((descDigits.filter fun i => !mask.testBit i).take k).sum := by
  unfold highSum
  rw [lowSumGo_fst]
  simp

/-- Taking the `k+1` smallest elements of a sorted list is no more than `d`
plus the `k` smallest of the list with one occurrence of `d` removed. -/
lemma take_sum_le_insert (d : Nat) :
    ∀ (A : List Nat) (k : Nat), List.Sorted (· ≤ ·) A → d ∈ A →
      (A.take (k + 1)).sum ≤ d + ((A.erase d).take k).sum := by
  intro A
  induction A with
  | nil => intro k _ hmem; cases hmem
  | cons a A' ih =>
    intro k hsort hmem
    have hle : ∀ x ∈ A', a ≤ x := fun x hx => List.rel_of_sorted_cons hsort x hx
    have hsort' : List.Sorted (· ≤ ·) A' := hsort.of_cons
    by_cases had : a = d
    · subst had
      rw [List.erase_cons_head]
      simp only [List.take_succ_cons, List.sum_cons]
      omega
    · have hd' : d ∈ A' := by
        rcases List.mem_cons.mp hmem with h | h
        · exact absurd h.symm had
        · exact h
      have herase : (a :: A').erase d = a :: A'.erase d := by
        rw [List.erase_cons_tail]
        simp [had]
      rw [herase]
      cases k with
      | zero =>
        simp only [List.take_succ_cons, List.take_zero, List.sum_cons,
          List.sum_nil, Nat.add_zero]
        exact le_trans (hle d hd') (Nat.le_add_right d 0)
      | succ k' =>
        simp only [List.take_succ_cons, List.sum_cons]
        have := ih k' hsort' hd'
        omega

/-- Taking the `k+1` largest elements of a reverse-sorted list is at least
`d` plus the `k` largest of the list with one occurrence of `d` removed. -/
lemma take_sum_ge_insert (d : Nat) :
    ∀ (B : List Nat) (k : Nat), List.Sorted (· ≥ ·) B → d ∈ B →
      d + ((B.erase d).take k).sum ≤ (B.take (k + 1)).sum := by
  intro B
  induction B with
  | nil => intro k _ hmem; cases hmem
  | cons b B' ih =>
    intro k hsort hmem
    have hge : ∀ x ∈ B', x ≤ b := fun x hx => List.rel_of_sorted_cons hsort x hx
    have hsort' : List.Sorted (· ≥ ·) B' := hsort.of_cons
    by_cases hbd : b = d
    · subst hbd
      rw [List.erase_cons_head]
      simp only [List.take_succ_cons, List.sum_cons]
      omega
    · have hd' : d ∈ B' := by
        rcases List.mem_cons.mp hmem with h | h
        · exact absurd h.symm hbd
        · exact h
      have herase : (b :: B').erase d = b :: B'.erase d := by
        rw [List.erase_cons_tail]
        simp [hbd]
      rw [herase]
      cases k with
      | zero =>
        simp only [List.take_succ_cons, List.take_zero, List.sum_cons,
          List.sum_nil, Nat.add_zero]
        exact le_trans (le_refl d) (le_trans (hge d hd') (Nat.le_add_right b 0))
      | succ k' =>
        simp only [List.take_succ_cons, List.sum_cons]
        have := ih k' hsort' hd'
        omega

lemma filter_or_bit_erase (m d : Nat) (l : List Nat) (hnd : l.Nodup) :
    (l.filter fun i => !(m ||| (1 <<< d)).testBit i) =
      (l.filter fun i => !m.testBit i).erase d := by
  rw [List.Nodup.erase_eq_filter (hnd.filter _) d, List.filter_filter]
  apply List.filter_congr
  intro i _
  by_cases h1 : m.testBit i <;> by_cases h2 : i = d
  · subst h2
    simp [Nat.testBit_or, h1]
  · simp [Nat.testBit_or, h1]
  · subst h2
    simp [Nat.testBit_or, Nat.one_shiftLeft, Nat.testBit_two_pow, h1]
  · have h2' : ¬(d = i) := fun h => h2 h.symm
    simp [Nat.testBit_or, Nat.one_shiftLeft, Nat.testBit_two_pow, h1, h2, h2',
      bne]

lemma lowSum_insert_le (m d k : Nat) (hd1 : 1 ≤ d) (hd9 : d ≤ 9)
    (hbit : ¬m.testBit d) :
    lowSum m (k + 1) ≤ d + lowSum (m ||| (1 <<< d)) k := by
  rw [lowSum_take, lowSum_take,
    filter_or_bit_erase m d ascDigits (by decide)]
  apply take_sum_le_insert
  · exact List.Sorted.filter _ (by decide)
  · rw [List.mem_filter]
    refine ⟨?_, by simpa using hbit⟩
    interval_cases d <;> decide

lemma highSum_insert_ge (m d k : Nat) (hd1 : 1 ≤ d) (hd9 : d ≤ 9)
    (hbit : ¬m.testBit d) :
    d + highSum (m ||| (1 <<< d)) k ≤ highSum m (k + 1) := by
  rw [highSum_take, highSum_take,
    filter_or_bit_erase m d descDigits (by decide)]
  apply take_sum_ge_insert
  · exact List.Sorted.filter _ (by decide)
  · rw [List.mem_filter]
    refine ⟨?_, by simpa using hbit⟩
    interval_cases d <;> decide

/-! ### C3: the consistency test against the specification's rule

The following definitions transcribe the words of the specification
(section 4.D, sum feasibility): `S` the sum of assigned digits in the
sector including the proposed digit, `U` the set of digits used, `k` the
number of still-unassigned cells, and the acceptance rule.  They are
deliberately written from the spec, independently of `checkSector`, and the
equivalence theorem compares the two. -/

/-- The cells of a sector, other than the proposed one, that carry a digit
under the effective assignment. -/
def specAssigned (eff : Pos → Nat) (cell : Pos) (cells : List Pos) : List Pos :=
  cells.filter fun p => decide (p ≠ cell ∧ 0 < eff p)

/-- Spec: `S` = sum of assigned digits in the sector, including `v`. -/
def specS (eff : Pos → Nat) (cell : Pos) (v : Nat) (cells : List Pos) : Nat :=
  v + ((specAssigned eff cell cells).map eff).sum

/-- Spec: `U` = the set of digits used in the sector, including `v`. -/
def specUsed (eff : Pos → Nat) (cell : Pos) (v : Nat) (cells : List Pos) :
    Finset ℕ :=
  insert v ((specAssigned eff cell cells).map eff).toFinset

/-- Spec: `k` = the number of still-unassigned cells of the sector. -/
def specK (eff : Pos → Nat) (cell : Pos) (cells : List Pos) : Nat :=
  (cells.filter fun p => decide (p ≠ cell ∧ eff p = 0)).length

/-- Spec: `min_k_unused_digits(U)` — the sum of the `k` smallest digits of
1..9 outside `U` (all of them if fewer than `k` remain). -/
def specMinUnused (U : Finset ℕ) (k : Nat) : Nat :=
  ((ascDigits.filter fun d => decide (d ∉ U)).take k).sum

/-- Spec: `max_k_unused_digits(U)` — the sum of the `k` largest digits of
1..9 outside `U`. -/
def specMaxUnused (U : Finset ℕ) (k : Nat) : Nat :=
  ((descDigits.filter fun d => decide (d ∉ U)).take k).sum

/-- The specification's acceptance rule for one sector carrying a clue:
no other cell of the sector already holds `v`; not `S > clue`; not
(`k = 0` and `S ≠ clue`); and the interval
`[S + min_k_unused_digits(U), S + max_k_unused_digits(U)]` contains the
clue. -/
def specSectorAccept (eff : Pos → Nat) (cell : Pos) (v : Nat)
    (cells : List Pos) (clue : Int) : Prop :=
  (∀ p ∈ cells, p ≠ cell → eff p ≠ v) ∧
  ¬((specS eff cell v cells : Int) > clue) ∧
  ¬(specK eff cell cells = 0 ∧ (specS eff cell v cells : Int) ≠ clue) ∧
  ((specS eff cell v cells +
      specMinUnused (specUsed eff cell v cells) (specK eff cell cells) : Nat) : Int) ≤ clue ∧
  clue ≤ ((specS eff cell v cells +
      specMaxUnused (specUsed eff cell v cells) (specK eff cell cells) : Nat) : Int)

/-- The clue lookup performed by `is_valid_move` for a sector: the cell
preceding the first sector cell must be inside the grid and carry the
direction's clue. -/
def sectorClueAt (st : BState) (cells : List Pos) (isHorz : Bool) :
    Option Int :=
  match cells with
  | [] => none
  | first :: _ =>
    if (if isHorz then first.1 else first.1 - 1) < 0 ∨
        (if isHorz then first.2 - 1 else first.2) < 0 then none
    else if isHorz then st.clueH (first.1, first.2 - 1)
    else st.clueV (first.1 - 1, first.2)

lemma length_three_split (eff : Pos → Nat) (cell : Pos) (l : List Pos) :
    l.length = (l.filter fun p => decide (p = cell)).length +
      (l.filter fun p => decide (p ≠ cell ∧ 0 < eff p)).length +
      (l.filter fun p => decide (p ≠ cell ∧ eff p = 0)).length := by
  induction l with
  | nil => simp
  | cons p rest ih =>
    rw [List.length_cons, List.filter_cons, List.filter_cons, List.filter_cons]
    by_cases hp : p = cell
    · simp only [hp, decide_True, if_pos]
      have h2 : decide (cell ≠ cell ∧ 0 < eff cell) = false := by simp
      have h3 : decide (cell ≠ cell ∧ eff cell = 0) = false := by simp
      rw [h2, h3]
      simp only [Bool.false_eq_true, if_false, List.length_cons]
      omega
    · have h1 : decide (p = cell) = false := by simp [hp]
      rw [h1]
      by_cases hpos : 0 < eff p
      · have h2 : decide (p ≠ cell ∧ 0 < eff p) = true := by simp [hp, hpos]
        have h3 : decide (p ≠ cell ∧ eff p = 0) = false := by
          simp only [decide_eq_false_iff_not]
          rintro ⟨_, h0⟩
          omega
        rw [h2, h3]
        simp only [Bool.false_eq_true, if_false, if_pos, List.length_cons]
        omega
      · have h0 : eff p = 0 := by omega
        have h2 : decide (p ≠ cell ∧ 0 < eff p) = false := by simp [hpos]
        have h3 : decide (p ≠ cell ∧ eff p = 0) = true := by simp [hp, h0]
        rw [h2, h3]
        simp only [Bool.false_eq_true, if_false, if_pos, List.length_cons]
        omega

lemma filter_eq_cell_length (cell : Pos) :
    ∀ (l : List Pos), l.Nodup → cell ∈ l →
      (l.filter fun p => decide (p = cell)).length = 1 := by
  intro l
  induction l with
  | nil => intro _ h; cases h
  | cons p rest ih =>
    intro hnd hmem
    rcases List.mem_cons.mp hmem with heq | hmem2
    · have hpnot : p ∉ rest := (List.nodup_cons.mp hnd).1
      rw [List.filter_cons]
      have h1 : decide (p = cell) = true := by simp [heq]
      rw [h1]
      have h2 : (rest.filter fun q => decide (q = cell)).length = 0 := by
        rw [List.length_eq_zero]
        rw [List.filter_eq_nil_iff]
        intro q hq
        simp only [decide_eq_true_eq]
        intro hqc
        rw [hqc, heq] at hq
        exact hpnot hq
      simp [h2]
    · have hp : ¬(p = cell) := fun h => (List.nodup_cons.mp hnd).1 (h ▸ hmem2)
      rw [List.filter_cons]
      have h1 : decide (p = cell) = false := by simp [hp]
      rw [h1]
      simp only [Bool.false_eq_true, if_false]
      exact ih (List.nodup_cons.mp hnd).2 hmem2

lemma lowSum_congr_set (mask : Nat) (U : Finset ℕ) (k : Nat)
    (h : ∀ d ∈ ascDigits, (mask.testBit d ↔ d ∈ U)) :
    lowSum mask k = specMinUnused U k := by
  rw [lowSum_take, specMinUnused]
  congr 2
  apply List.filter_congr
  intro d hd
  have := h d hd
  by_cases hb : mask.testBit d
  · simp [hb, this.mp hb]
  · have : d ∉ U := fun hU => hb (this.mpr hU)
    simp [hb, this]

lemma highSum_congr_set (mask : Nat) (U : Finset ℕ) (k : Nat)
    (h : ∀ d ∈ descDigits, (mask.testBit d ↔ d ∈ U)) :
    highSum mask k = specMaxUnused U k := by
  rw [highSum_take, specMaxUnused]
  congr 2
  apply List.filter_congr
  intro d hd
  have := h d hd
  by_cases hb : mask.testBit d
  · simp [hb, this.mp hb]
  · have : d ∉ U := fun hU => hb (this.mpr hU)
    simp [hb, this]

lemma checkSector_eval (st : BState) (eff : Pos → Nat) (cell : Pos)
    (val : Nat) (first : Pos) (rest : List Pos) (isHorz : Bool) (S M F : Nat)
    (hscan : scanGo eff cell val (first :: rest) (val, 1 <<< val, 1) =
      some (S, M, F)) :
    checkSector st eff cell val (some (first :: rest)) isHorz false =
      (if (if isHorz then first.1 else first.1 - 1) < 0 ∨
          (if isHorz then first.2 - 1 else first.2) < 0 then false
       else
         match (if isHorz then
             st.clueH (if isHorz then first.1 else first.1 - 1,
               if isHorz then first.2 - 1 else first.2)
           else
             st.clueV (if isHorz then first.1 else first.1 - 1,
               if isHorz then first.2 - 1 else first.2)) with
         | none => false
         | some target =>
           if (S : Int) > target then false
           else if (((first :: rest).length : Int) - (F : Int)) > 0 then
             if ((S + lowSum M (((first :: rest).length : Int) - (F : Int)).toNat : Nat) : Int) > target ∨
                 ((S + highSum M (((first :: rest).length : Int) - (F : Int)).toNat : Nat) : Int) < target
             then false
             else true
           else if (S : Int) ≠ target then false
           else true) := by
  simp only [checkSector]
  rw [hscan]
  rfl

lemma checkSector_spec (st : BState) (eff : Pos → Nat) (cell : Pos) (v : Nat)
    (cells : List Pos) (isHorz : Bool) (target : Int)
    (hv : 1 ≤ v) (hnd : cells.Nodup) (hmem : cell ∈ cells)
    (hclue : sectorClueAt st cells isHorz = some target) :
    checkSector st eff cell v (some cells) isHorz false = true ↔
      specSectorAccept eff cell v cells target := by
  obtain ⟨first, rest, rfl⟩ : ∃ f r, cells = f :: r := by
    cases cells with
    | nil => cases hmem
    | cons f r => exact ⟨f, r, rfl⟩
  by_cases hdup : ∃ p ∈ first :: rest, p ≠ cell ∧ 0 < eff p ∧ eff p = v
  · have hcode : checkSector st eff cell v (some (first :: rest)) isHorz false
        = false := by
      simp only [checkSector]
      rw [scanGo_eq, if_pos hdup]
    rw [hcode]
    obtain ⟨p, hp, hne, _, heq⟩ := hdup
    constructor
    · intro h; cases h
    · rintro ⟨hnodup, -⟩
      exact absurd heq (hnodup p hp hne)
  · set flt := (first :: rest).filter (fun p => decide (p ≠ cell ∧ 0 < eff p))
      with hflt
    set res := flt.foldl (scanStep eff) (v, 1 <<< v, 1) with hres
    have hscan : scanGo eff cell v (first :: rest) (v, 1 <<< v, 1) =
        some (res.1, res.2.1, res.2.2) := by
      rw [scanGo_eq, if_neg hdup]
    have hsum : res.1 = specS eff cell v (first :: rest) := by
      rw [hres, scanFold_sum]
      rfl
    have hcnt : res.2.2 = 1 + flt.length := by
      rw [hres, scanFold_cnt]
    have hmask : ∀ d,
        (res.2.1.testBit d ↔ d ∈ specUsed eff cell v (first :: rest)) := by
      intro d
      rw [hres, scanFold_mask]
      simp only [Nat.one_shiftLeft, Nat.testBit_two_pow, specUsed,
        Finset.mem_insert, List.mem_toFinset, List.mem_map, Bool.or_eq_true,
        decide_eq_true_eq]
      constructor
      · rintro (h | ⟨p, hp, h⟩)
        · left; exact h.symm
        · right; exact ⟨p, hp, h⟩
      · rintro (h | ⟨p, hp, h⟩)
        · left; exact h.symm
        · right; exact ⟨p, hp, h⟩
    have hsplit := length_three_split eff cell (first :: rest)
    have hone := filter_eq_cell_length cell (first :: rest) hnd hmem
    have hrem : ((first :: rest).length : Int) - (res.2.2 : Int) =
        (specK eff cell (first :: rest) : Int) := by
      rw [hcnt]
      unfold specK
      rw [hsplit, hone, ← hflt]
      push_cast
      ring
    have hlow := lowSum_congr_set res.2.1
      (specUsed eff cell v (first :: rest))
      (specK eff cell (first :: rest)) (fun d _ => hmask d)
    have hhigh := highSum_congr_set res.2.1
      (specUsed eff cell v (first :: rest))
      (specK eff cell (first :: rest)) (fun d _ => hmask d)
    have hnodup : ∀ p ∈ first :: rest, p ≠ cell → eff p ≠ v := by
      intro p hp hne heq
      exact hdup ⟨p, hp, hne, by omega, heq⟩
    rw [checkSector_eval st eff cell v first rest isHorz res.1 res.2.1 res.2.2
      hscan]
    set S := specS eff cell v (first :: rest) with hS
    set K := specK eff cell (first :: rest) with hK
    set U := specUsed eff cell v (first :: rest) with hU
    have htoNat : ((K : Int)).toNat = K := Int.toNat_natCast K
    rw [hrem, hsum, htoNat, hlow, hhigh]
    -- dispose of the clue lookup using hclue
    have hcond : ¬((if isHorz then first.1 else first.1 - 1) < 0 ∨
        (if isHorz then first.2 - 1 else first.2) < 0) := by
      intro hneg
      simp only [sectorClueAt] at hclue
      rw [if_pos hneg] at hclue
      cases hclue
    have hlook : (if isHorz then
        st.clueH (if isHorz then first.1 else first.1 - 1,
          if isHorz then first.2 - 1 else first.2)
      else
        st.clueV (if isHorz then first.1 else first.1 - 1,
          if isHorz then first.2 - 1 else first.2)) = some target := by
      simp only [sectorClueAt] at hclue
      rw [if_neg hcond] at hclue
      cases isHorz
      · simpa using hclue
      · simpa using hclue
    rw [if_neg hcond]
    simp only [hlook]
    unfold specSectorAccept
    rw [← hS, ← hK, ← hU]
    have hspecnodup : (∀ p ∈ first :: rest, p ≠ cell → eff p ≠ v) := hnodup
    by_cases hK0 : K = 0
    · have hmin0 : specMinUnused U K = 0 := by
        rw [hK0]
        simp [specMinUnused]
      have hmax0 : specMaxUnused U K = 0 := by
        rw [hK0]
        simp [specMaxUnused]
      rw [hmin0, hmax0]
      constructor
      · intro hcode
        by_cases hgt : (S : Int) > target
        · rw [if_pos hgt] at hcode; cases hcode
        · rw [if_neg hgt] at hcode
          rw [if_neg (by omega)] at hcode
          by_cases hne : (S : Int) ≠ target
          · rw [if_pos hne] at hcode; cases hcode
          · refine ⟨hspecnodup, hgt, ?_, ?_, ?_⟩ <;> omega
      · rintro ⟨-, hgt, hkc, hlo, hhi⟩
        rw [if_neg hgt, if_neg (by omega), if_neg (by omega)]
    · constructor
      · intro hcode
        by_cases hgt : (S : Int) > target
        · rw [if_pos hgt] at hcode; cases hcode
        · rw [if_neg hgt] at hcode
          rw [if_pos (by omega)] at hcode
          by_cases hint : ((S + specMinUnused U K : Nat) : Int) > target ∨
              ((S + specMaxUnused U K : Nat) : Int) < target
          · rw [if_pos hint] at hcode; cases hcode
          · push_neg at hint
            refine ⟨hspecnodup, hgt, by omega, ?_, ?_⟩ <;> omega
      · rintro ⟨-, hgt, hkc, hlo, hhi⟩
        rw [if_neg hgt, if_pos (by omega), if_neg (by omega)]

/-! ### C3: claim theorem and witness board -/

/-- A concrete two-white-cell board used to exercise the consistency test:
whites `(1,1)` and `(1,2)` form one horizontal sector with clue 4 at
`(1,0)`; each is its own vertical sector with clues 1 and 3. -/
def c3B : BStatic where
  whiteCells := [((1 : Int), (1 : Int)), (1, 2)]
  sectorH := fun p => if p = (1, 1) ∨ p = (1, 2) then some [(1, 1), (1, 2)] else none
  sectorV := fun p =>
    if p = (1, 1) then some [(1, 1)]
    else if p = (1, 2) then some [(1, 2)] else none
  sectorsH := [[(1, 1), (1, 2)]]
  sectorsV := [[(1, 1)], [(1, 2)]]

/-- The cell fields of the concrete board: `(1,2)` already holds 3. -/
def c3St : BState where
  value := fun p => if p = (1, 2) then some 3 else none
  clueH := fun p => if p = (1, 0) then some 4 else none
  clueV := fun p =>
    if p = (0, 1) then some 1 else if p = (0, 2) then some 3 else none
  ctype := fun p => if p = (1, 1) ∨ p = (1, 2) then CellT.WHITE else CellT.BLOCK

/-- The empty partial assignment. -/
def c3A : Pos → Option Nat := fun _ => none

/-- C3: `is_valid_move` with clues enabled implements exactly the spec's
sum-feasibility rule.  For a proposed `(cell ← v)` whose horizontal and
vertical sectors both carry a clue (looked up, as the code does, at the cell
preceding the sector), the move is accepted if and only if, in each sector:
no other cell already holds `v`; not `S > clue`; not (`k = 0` and
`S ≠ clue`); and `clue` lies in the interval
`[S + min_k_unused_digits(U), S + max_k_unused_digits(U)]`, where `S`, `U`,
`k` are the spec's sum, used-digit set and open-cell count. -/
theorem is_valid_move_matches_spec (B : BStatic) (st : BState)
    (assignment : Option (Pos → Option Nat)) (cell : Pos) (v : Nat)
    (hs vs : List Pos) (tH tV : Int)
    (hv : 1 ≤ v)
    (hH : B.sectorH cell = some hs) (hV : B.sectorV cell = some vs)
    (hndH : hs.Nodup) (hndV : vs.Nodup)
    (hmemH : cell ∈ hs) (hmemV : cell ∈ vs)
    (hclueH : sectorClueAt st hs true = some tH)
    (hclueV : sectorClueAt st vs false = some tV) :
    isValidMove B st assignment cell v false = true ↔
      specSectorAccept (effValue st assignment) cell v hs tH ∧
      specSectorAccept (effValue st assignment) cell v vs tV := by
  unfold isValidMove
  rw [hH, hV, Bool.and_eq_true,
    checkSector_spec st (effValue st assignment) cell v hs true tH hv hndH
      hmemH hclueH,
    checkSector_spec st (effValue st assignment) cell v vs false tV hv hndV
      hmemV hclueV]

/-- Witness: on the concrete board, proposing `(1,1) ← 1` with `(1,2)`
already holding 3 is characterized by the spec rule for clues 4 and 1. -/
theorem is_valid_move_matches_spec_witness :
    isValidMove c3B c3St (some c3A) (1, 1) 1 false = true ↔
      specSectorAccept (effValue c3St (some c3A)) (1, 1) 1 [(1, 1), (1, 2)] 4 ∧
      specSectorAccept (effValue c3St (some c3A)) (1, 1) 1 [(1, 1)] 1 :=
  is_valid_move_matches_spec c3B c3St (some c3A) (1, 1) 1
    [(1, 1), (1, 2)] [(1, 1)] 4 1
    (by decide) (by decide) (by decide) (by decide) (by decide)
    (by decide) (by decide) (by decide) (by decide)

/-! ### C9: consistency monotonicity -/

lemma lowSum_zero (m : Nat) : lowSum m 0 = 0 := by
  rw [lowSum_take]
  simp

lemma highSum_zero (m : Nat) : highSum m 0 = 0 := by
  rw [highSum_take]
  simp

lemma lowSum_congr_bits (m1 m2 k : Nat)
    (h : ∀ i ∈ ascDigits, m1.testBit i = m2.testBit i) :
    lowSum m1 k = lowSum m2 k := by
  rw [lowSum_take, lowSum_take]
  have hf : (ascDigits.filter fun i => !m1.testBit i) =
      ascDigits.filter fun i => !m2.testBit i :=
    List.filter_congr fun i hi => by rw [h i hi]
  rw [hf]

lemma highSum_congr_bits (m1 m2 k : Nat)
    (h : ∀ i ∈ descDigits, m1.testBit i = m2.testBit i) :
    highSum m1 k = highSum m2 k := by
  rw [highSum_take, highSum_take]
  have hf : (descDigits.filter fun i => !m1.testBit i) =
      descDigits.filter fun i => !m2.testBit i :=
    List.filter_congr fun i hi => by rw [h i hi]
  rw [hf]

lemma scanGo_congr (eff eff' : Pos → Nat) (cell : Pos) (val : Nat) :
    ∀ (l : List Pos), (∀ p ∈ l, eff' p = eff p) →
      ∀ acc, scanGo eff' cell val l acc = scanGo eff cell val l acc := by
  intro l
  induction l with
  | nil => intro _ acc; rfl
  | cons p rest ih =>
    intro h acc
    have hp := h p (List.mem_cons_self p rest)
    have hrest := fun q hq => h q (List.mem_cons_of_mem p hq)
    simp only [scanGo, hp, ih hrest]

/-- The per-sector check reads the effective assignment only at the
sector's cells. -/
lemma checkSector_congr (st : BState) (eff eff' : Pos → Nat) (cell : Pos)
    (val : Nat) (L : List Pos) (isHorz ic : Bool)
    (h : ∀ p ∈ L, eff' p = eff p) :
    checkSector st eff' cell val (some L) isHorz ic =
      checkSector st eff cell val (some L) isHorz ic := by
  cases L with
  | nil => rfl
  | cons first rest =>
    simp only [checkSector, scanGo_congr eff eff' cell val (first :: rest) h]

/-- Giving digit `d` to a previously empty cell `c0` of a sector can only
shrink the set of proposals the per-sector check accepts at another cell
`c`, provided `d` does not duplicate a digit already present in the
sector. -/
lemma checkSector_mono (st : BState) (eff eff' : Pos → Nat) (c0 c : Pos)
    (d v : Nat) (L : List Pos) (isHorz : Bool)
    (heff : ∀ p, p ≠ c0 → eff' p = eff p) (h0 : eff c0 = 0) (hdc : eff' c0 = d)
    (hd1 : 1 ≤ d) (hd9 : d ≤ 9)
    (hnd : L.Nodup) (hc0 : c0 ∈ L) (hcc : c ≠ c0) (hmemc : c ∈ L)
    (hnodupd : ∀ p ∈ L, p ≠ c0 → eff p ≠ d) :
    checkSector st eff' c v (some L) isHorz false = true →
    checkSector st eff c v (some L) isHorz false = true := by
  intro h'
  cases L with
  | nil => cases hc0
  | cons first rest =>
  by_cases hdup' : ∃ p ∈ first :: rest, p ≠ c ∧ 0 < eff' p ∧ eff' p = v
  · rw [show checkSector st eff' c v (some (first :: rest)) isHorz false
        = false from by simp only [checkSector]; rw [scanGo_eq, if_pos hdup']]
      at h'
    cases h'
  have hdv : d ≠ v := by
    intro hdv
    exact hdup' ⟨c0, hc0, Ne.symm hcc, by rw [hdc]; omega, by rw [hdc, hdv]⟩
  have hdup : ¬∃ p ∈ first :: rest, p ≠ c ∧ 0 < eff p ∧ eff p = v := by
    rintro ⟨p, hp, hpc, hpos, hpv⟩
    have hpc0 : p ≠ c0 := by
      rintro rfl
      rw [h0] at hpos
      omega
    exact hdup' ⟨p, hp, hpc, by rw [heff p hpc0]; exact hpos,
      by rw [heff p hpc0]; exact hpv⟩
  obtain ⟨l1, l2, hsplitL⟩ := List.append_of_mem hc0
  set L0 := l1 ++ l2 with hL0def
  have hperm : List.Perm (first :: rest) (c0 :: L0) := by
    rw [hsplitL, hL0def]
    exact List.perm_middle
  obtain ⟨hc0L0, hndL0⟩ := List.nodup_cons.mp ((hperm.nodup_iff).mp hnd)
  have hne0 : ∀ p ∈ L0, p ≠ c0 := fun p hp hpe => hc0L0 (hpe ▸ hp)
  have hL0mem : ∀ p ∈ L0, p ∈ first :: rest := fun p hp =>
    hperm.mem_iff.mpr (List.mem_cons_of_mem c0 hp)
  have hcL0 : c ∈ L0 := by
    rcases List.mem_cons.mp (hperm.mem_iff.mp hmemc) with h | h
    · exact absurd h hcc
    · exact h
  set flt := L0.filter (fun p => decide (p ≠ c ∧ 0 < eff p)) with hfltdef
  have hc0t : decide (c0 ≠ c ∧ 0 < eff' c0) = true := by
    rw [hdc]
    simp only [decide_eq_true_eq]
    exact ⟨Ne.symm hcc, by omega⟩
  have hfilt2 : L0.filter (fun p => decide (p ≠ c ∧ 0 < eff' p)) = flt := by
    rw [hfltdef]
    exact List.filter_congr fun p hp => by rw [heff p (hne0 p hp)]
  have hfP' : List.Perm
      ((first :: rest).filter (fun p => decide (p ≠ c ∧ 0 < eff' p)))
      (c0 :: flt) := by
    have h1 := hperm.filter (fun p => decide (p ≠ c ∧ 0 < eff' p))
    have h2 : (c0 :: L0).filter (fun p => decide (p ≠ c ∧ 0 < eff' p)) =
        c0 :: flt := by
      rw [List.filter_cons, if_pos hc0t, hfilt2]
    rw [h2] at h1
    exact h1
  have hfP : List.Perm
      ((first :: rest).filter (fun p => decide (p ≠ c ∧ 0 < eff p)))
      flt := by
    have h1 := hperm.filter (fun p => decide (p ≠ c ∧ 0 < eff p))
    have h2 : (c0 :: L0).filter (fun p => decide (p ≠ c ∧ 0 < eff p)) =
        flt := by
      rw [List.filter_cons, if_neg (by simp [h0]), hfltdef]
    rw [h2] at h1
    exact h1
  set res := ((first :: rest).filter
    (fun p => decide (p ≠ c ∧ 0 < eff p))).foldl
    (scanStep eff) (v, 1 <<< v, 1) with hresdef
  set res' := ((first :: rest).filter
    (fun p => decide (p ≠ c ∧ 0 < eff' p))).foldl
    (scanStep eff') (v, 1 <<< v, 1) with hresdef'
  have hscan : scanGo eff c v (first :: rest) (v, 1 <<< v, 1) =
      some (res.1, res.2.1, res.2.2) := by
    rw [scanGo_eq, if_neg hdup]
  have hscan' : scanGo eff' c v (first :: rest) (v, 1 <<< v, 1) =
      some (res'.1, res'.2.1, res'.2.2) := by
    rw [scanGo_eq, if_neg hdup']
  have hfltmap : flt.map eff' = flt.map eff :=
    List.map_congr_left fun p hp =>
      heff p (hne0 p (List.mem_of_mem_filter hp))
  have hsum : res.1 = v + (flt.map eff).sum := by
    rw [hresdef, scanFold_sum, (hfP.map eff).sum_eq]
  have hsum' : res'.1 = v + (d + (flt.map eff).sum) := by
    rw [hresdef', scanFold_sum, (hfP'.map eff').sum_eq, List.map_cons,
      List.sum_cons, hdc, hfltmap]
  have hr1 : res'.1 = res.1 + d := by
    rw [hsum', hsum]
    omega
  have hcnt : res.2.2 = 1 + flt.length := by
    rw [hresdef, scanFold_cnt, hfP.length_eq]
  have hcnt' : res'.2.2 = 1 + (1 + flt.length) := by
    rw [hresdef', scanFold_cnt, hfP'.length_eq, List.length_cons]
    show (1 : Nat) + (flt.length + 1) = 1 + (1 + flt.length)
    omega
  have hexiff : ∀ i : Nat,
      (∃ p ∈ (first :: rest).filter
        (fun p => decide (p ≠ c ∧ 0 < eff p)), eff p = i) ↔
      ∃ p ∈ flt, eff p = i := by
    intro i
    constructor
    · rintro ⟨p, hp, hpe⟩
      exact ⟨p, hfP.mem_iff.mp hp, hpe⟩
    · rintro ⟨p, hp, hpe⟩
      exact ⟨p, hfP.mem_iff.mpr hp, hpe⟩
  have hexiff' : ∀ i : Nat,
      (∃ p ∈ (first :: rest).filter
        (fun p => decide (p ≠ c ∧ 0 < eff' p)), eff' p = i) ↔
      (d = i ∨ ∃ p ∈ flt, eff p = i) := by
    intro i
    constructor
    · rintro ⟨p, hp, hpe⟩
      rcases List.mem_cons.mp (hfP'.mem_iff.mp hp) with rfl | hpf
      · left; rw [← hdc]; exact hpe
      · have hpne := hne0 p (List.mem_of_mem_filter hpf)
        exact Or.inr ⟨p, hpf, by rw [← heff p hpne]; exact hpe⟩
    · rintro (rfl | ⟨p, hp, hpe⟩)
      · exact ⟨c0, hfP'.mem_iff.mpr (List.mem_cons_self c0 _), hdc⟩
      · have hpne := hne0 p (List.mem_of_mem_filter hp)
        exact ⟨p, hfP'.mem_iff.mpr (List.mem_cons_of_mem c0 hp),
          by rw [heff p hpne]; exact hpe⟩
  have hmask : ∀ i, res.2.1.testBit i =
      ((1 <<< v : Nat).testBit i || decide (∃ p ∈ flt, eff p = i)) := by
    intro i
    rw [hresdef, scanFold_mask, decide_eq_decide.mpr (hexiff i)]
  have hmask' : ∀ i, res'.2.1.testBit i =
      ((1 <<< v : Nat).testBit i ||
        decide (d = i ∨ ∃ p ∈ flt, eff p = i)) := by
    intro i
    rw [hresdef', scanFold_mask, decide_eq_decide.mpr (hexiff' i)]
  have hfltd : ¬∃ p ∈ flt, eff p = d := by
    rintro ⟨p, hp, hpe⟩
    have hpL0 := List.mem_of_mem_filter hp
    exact hnodupd p (hL0mem p hpL0) (hne0 p hpL0) hpe
  have hbitd : res.2.1.testBit d = false := by
    rw [hmask d]
    simp only [Nat.one_shiftLeft, Nat.testBit_two_pow, Bool.or_eq_false_iff,
      decide_eq_false_iff_not]
    exact ⟨fun hvd => hdv hvd.symm, hfltd⟩
  have hmaskor : ∀ i, res'.2.1.testBit i =
      (res.2.1 ||| (1 <<< d)).testBit i := by
    intro i
    rw [Nat.testBit_or, hmask', hmask]
    by_cases h1 : (1 <<< v : Nat).testBit i <;>
      by_cases h2 : d = i <;>
        by_cases h3 : ∃ p ∈ flt, eff p = i <;>
          simp [h1, h2, h3, Nat.one_shiftLeft, Nat.testBit_two_pow]
  have hlows : ∀ k, lowSum res'.2.1 k = lowSum (res.2.1 ||| (1 <<< d)) k :=
    fun k => lowSum_congr_bits _ _ k (fun i _ => hmaskor i)
  have hhighs : ∀ k, highSum res'.2.1 k = highSum (res.2.1 ||| (1 <<< d)) k :=
    fun k => highSum_congr_bits _ _ k (fun i _ => hmaskor i)
  have hcflt : flt.length < L0.length := by
    rw [hfltdef, List.length_filter_lt_length_iff_exists]
    exact ⟨c, hcL0, by simp⟩
  have hlen : (first :: rest).length = L0.length + 1 := by
    rw [hperm.length_eq, List.length_cons]
  rw [checkSector_eval st eff' c v first rest isHorz res'.1 res'.2.1 res'.2.2
    hscan'] at h'
  rw [checkSector_eval st eff c v first rest isHorz res.1 res.2.1 res.2.2
    hscan]
  by_cases hcond : (if isHorz then first.1 else first.1 - 1) < 0 ∨
      (if isHorz then first.2 - 1 else first.2) < 0
  · rw [if_pos hcond] at h'
    cases h'
  rw [if_neg hcond] at h' ⊢
  rcases hlook : (if isHorz then
      st.clueH (if isHorz then first.1 else first.1 - 1,
        if isHorz then first.2 - 1 else first.2)
    else
      st.clueV (if isHorz then first.1 else first.1 - 1,
        if isHorz then first.2 - 1 else first.2)) with _ | target
  · simp only [hlook] at h'
    cases h'
  · simp only [hlook] at h' ⊢
    set K := (((first :: rest).length : Int) - (res'.2.2 : Int)).toNat
      with hKdef
    have hKeq : (((first :: rest).length : Int) - (res.2.2 : Int)).toNat =
        K + 1 := by
      rw [hKdef]
      omega
    have hble : lowSum res.2.1 (K + 1) ≤
        d + lowSum (res.2.1 ||| (1 <<< d)) K :=
      lowSum_insert_le _ _ _ hd1 hd9 (by simp [hbitd])
    have hbge : d + highSum (res.2.1 ||| (1 <<< d)) K ≤
        highSum res.2.1 (K + 1) :=
      highSum_insert_ge _ _ _ hd1 hd9 (by simp [hbitd])
    have hlowe := hlows K
    have hhighe := hhighs K
    by_cases hgt' : (res'.1 : Int) > target
    · rw [if_pos hgt'] at h'
      cases h'
    rw [if_neg hgt'] at h'
    by_cases hrem' : ((first :: rest).length : Int) - (res'.2.2 : Int) > 0
    · rw [if_pos hrem'] at h'
      by_cases hint' : ((res'.1 + lowSum res'.2.1 K : Nat) : Int) > target ∨
          ((res'.1 + highSum res'.2.1 K : Nat) : Int) < target
      · rw [if_pos hint'] at h'
        cases h'
      · push_neg at hint'
        obtain ⟨hlo', hhi'⟩ := hint'
        rw [if_neg (by omega), if_pos (by omega), hKeq, if_neg (by omega)]
    · rw [if_neg hrem'] at h'
      by_cases hne' : (res'.1 : Int) ≠ target
      · rw [if_pos hne'] at h'
        cases h'
      · push_neg at hne'
        have hK0 : K = 0 := by
          rw [hKdef]
          omega
        have hl0 : lowSum (res.2.1 ||| (1 <<< d)) K = 0 := by
          rw [hK0]
          exact lowSum_zero _
        have hh0 : highSum (res.2.1 ||| (1 <<< d)) K = 0 := by
          rw [hK0]
          exact highSum_zero _
        rw [if_neg (by omega), if_pos (by omega), hKeq, if_neg (by omega)]

/-- A two-white-cell board for exercising monotonicity: whites `(1,1)` and
`(1,2)` share the horizontal sector; vertical sectors are singletons. -/
def c9B : BStatic where
  whiteCells := [((1 : Int), (1 : Int)), (1, 2)]
  sectorH := fun p => if p = (1, 1) ∨ p = (1, 2) then some [(1, 1), (1, 2)] else none
  sectorV := fun p =>
    if p = (1, 1) then some [(1, 1)]
    else if p = (1, 2) then some [(1, 2)] else none
  sectorsH := [[(1, 1), (1, 2)]]
  sectorsV := [[(1, 1)], [(1, 2)]]

/-- Cell fields with no committed values, clue 4 across and clues 1 and 3
down. -/
def c9St : BState where
  value := fun _ => none
  clueH := fun p => if p = (1, 0) then some 4 else none
  clueV := fun p =>
    if p = (0, 1) then some 1 else if p = (0, 2) then some 3 else none
  ctype := fun p => if p = (1, 1) ∨ p = (1, 2) then CellT.WHITE else CellT.BLOCK

/-- The empty partial assignment for the monotonicity witness. -/
def c9A : Pos → Option Nat := fun _ => none

/-- C9: consistency monotonicity.  Extending a partial assignment by one
digit `d` at a previously empty cell `c0` never enlarges another cell's
valid-domain set under `is_valid_move`, and `get_domain_size` never
increases, provided the added digit does not itself duplicate a digit
already effective in the affected sectors (the consistency test's own
duplicate condition for the added move). -/
theorem is_valid_move_monotone (B : BStatic) (st : BState)
    (A : Pos → Option Nat) (c0 c : Pos) (d : Nat) (LH LV : List Pos)
    (hd1 : 1 ≤ d) (hd9 : d ≤ 9)
    (hA0 : A c0 = none) (hv0 : st.value c0 = none) (hcc : c ≠ c0)
    (hH : B.sectorH c = some LH) (hV : B.sectorV c = some LV)
    (hndH : LH.Nodup) (hndV : LV.Nodup) (hcH : c ∈ LH) (hcV : c ∈ LV)
    (hdupH : ∀ p ∈ LH, p ≠ c0 → effValue st (some A) p ≠ d)
    (hdupV : ∀ p ∈ LV, p ≠ c0 → effValue st (some A) p ≠ d) :
    (∀ v, isValidMove B st (some fun q => if q = c0 then some d else A q)
        c v false = true →
      isValidMove B st (some A) c v false = true) ∧
    getDomainSize B st (some fun q => if q = c0 then some d else A q) c
        false ≤
      getDomainSize B st (some A) c false := by
  have heff : ∀ p, p ≠ c0 →
      effValue st (some fun q => if q = c0 then some d else A q) p =
        effValue st (some A) p := by
    intro p hp
    simp only [effValue, if_neg hp]
  have h0 : effValue st (some A) c0 = 0 := by
    simp [effValue, hA0, hv0]
  have hdc : effValue st (some fun q => if q = c0 then some d else A q) c0 =
      d := by
    simp [effValue]
  have hmono : ∀ v,
      isValidMove B st (some fun q => if q = c0 then some d else A q)
        c v false = true →
      isValidMove B st (some A) c v false = true := by
    intro v hacc
    unfold isValidMove at hacc ⊢
    rw [hH, hV, Bool.and_eq_true] at hacc ⊢
    obtain ⟨haccH, haccV⟩ := hacc
    constructor
    · by_cases hc0H : c0 ∈ LH
      · exact checkSector_mono st (effValue st (some A)) _ c0 c d v LH true
          heff h0 hdc hd1 hd9 hndH hc0H hcc hcH hdupH haccH
      · rw [← checkSector_congr st (effValue st (some A)) _ c v LH true false
          (fun p hp => heff p (fun hpe => hc0H (hpe ▸ hp)))]
        exact haccH
    · by_cases hc0V : c0 ∈ LV
      · exact checkSector_mono st (effValue st (some A)) _ c0 c d v LV false
          heff h0 hdc hd1 hd9 hndV hc0V hcc hcV hdupV haccV
      · rw [← checkSector_congr st (effValue st (some A)) _ c v LV false false
          (fun p hp => heff p (fun hpe => hc0V (hpe ▸ hp)))]
        exact haccV
  refine ⟨hmono, ?_⟩
  unfold getDomainSize
  exact List.Sublist.length_le
    (List.monotone_filter_right ascDigits fun v hv => hmono v hv)

/-- Witness: on the concrete board, assigning 2 to `(1,2)` does not
increase the domain size of `(1,1)`. -/
theorem is_valid_move_monotone_witness :
    getDomainSize c9B c9St
        (some fun q => if q = ((1 : Int), (2 : Int)) then some 2 else c9A q)
        (1, 1) false ≤
      getDomainSize c9B c9St (some c9A) (1, 1) false :=
  (is_valid_move_monotone c9B c9St c9A (1, 2) (1, 1) 2
    [(1, 1), (1, 2)] [(1, 1)]
    (by decide) (by decide) rfl rfl (by decide) (by decide) (by decide)
    (by decide) (by decide) (by decide) (by decide) (by decide)
    (by decide)).2

/-! ### C4 and C6: the difficulty estimator's scoring, rating and abort

`KakuroDifficultyEstimator::estimate_difficulty_detailed` folds over the
solve log, mapping each step's technique name to a tier (the C++ enum
values 1..5) and a weight, accumulating `weight * cells_affected` and the
maximal tier, then assembles the result.  The C++ accumulates
`cumulative_effort` in a `float`; it is modelled in `ℚ` — exact as long as
the intermediate magnitudes stay below `2^24` (all weights are multiples of
`1/2`), which holds for any realistic solve log.  The solve log, the
solution count and the `search_aborted` flag are oracle inputs. -/

/-- One logged solve step (`struct SolveStep`): technique name and the
number of affected cells (the `difficulty_weight` field is not read by the
scoring fold). -/
structure SolveStep where
  technique : String
  cellsAffected : Int

/-- The weight assigned to a step by the `if`/`else if` chain of
`estimate_difficulty_detailed` (anything unrecognized falls into the
`trial_and_error` branch). -/
def stepWeight (s : SolveStep) : ℚ :=
  if s.technique = "unique_intersection" ∨
      s.technique = "elimination_singles" then 1
  else if s.technique = "simple_partition" then 5 / 2
  else if s.technique = "hidden_singles" ∨
      s.technique = "constraint_propagation" then 5
  else if s.technique = "complex_intersection" then 12
  else 50

/-- The tier assigned to a step by the same chain (enum values 1..5). -/
def stepTier (s : SolveStep) : Nat :=
  if s.technique = "unique_intersection" ∨
      s.technique = "elimination_singles" then 1
  else if s.technique = "simple_partition" then 2
  else if s.technique = "hidden_singles" ∨
      s.technique = "constraint_propagation" then 3
  else if s.technique = "complex_intersection" then 4
  else 5

/-- `highest_tier`: starts at `VERY_EASY = 1` and is bumped whenever a
step's tier exceeds it. -/
def highestTier (log : List SolveStep) : Nat :=
  log.foldl (fun t s => max t (stepTier s)) 1

/-- `cumulative_effort += weight * step.cells_affected`. -/
def cumulativeEffort (log : List SolveStep) : ℚ :=
  log.foldl (fun acc s => acc + stepWeight s * (s.cellsAffected : ℚ)) 0

/-- The `switch (highest_tier)` mapping tiers to rating strings. -/
def ratingOfTier : Nat → String
  | 1 => "Very Easy"
  | 2 => "Easy"
  | 3 => "Medium"
  | 4 => "Hard"
  | _ => "Extreme"

/-- The fields of `DifficultyResult` computed by the tail of
`estimate_difficulty_detailed`.  The C++ assigns `rating`/`uniqueness`
first and overwrites both when `search_aborted` is set; the conditional
here is the same function. -/
structure DifficultyResult where
  rating : String
  score : ℚ
  maxTier : Nat
  totalSteps : Nat
  solutionCount : Nat
  uniqueness : String

/-- Result assembly of `estimate_difficulty_detailed` (lines 74-140), with
the solve log, solution count and abort flag as oracles. -/
def estimateResultOf (searchAborted : Bool) (log : List SolveStep)
    (solutionCount : Nat) : DifficultyResult where
  rating := if searchAborted then "Extreme / Unsolvable"
    else ratingOfTier (highestTier log)
  score := cumulativeEffort log
  maxTier := highestTier log
  totalSteps := log.length
  solutionCount := solutionCount
  uniqueness := if searchAborted then "Inconclusive (Timeout)"
    else if solutionCount = 1 then "Unique"
    else if 1 < solutionCount then "Multiple" else "No Solution"

lemma cumulativeEffort_foldl (log : List SolveStep) :
    ∀ init : ℚ,
      log.foldl (fun acc s => acc + stepWeight s * (s.cellsAffected : ℚ))
        init =
      init + (log.map fun s => stepWeight s * (s.cellsAffected : ℚ)).sum := by
  induction log with
  | nil => intro init; simp
  | cons s rest ih =>
    intro init
    simp only [List.foldl_cons, List.map_cons, List.sum_cons, ih]
    ring

/-- C4 (counterexample): the returned rating is not purely a function of
the highest tier reached — an aborted search is stamped
"Extreme / Unsolvable" even when the highest tier is 1. -/
theorem difficulty_rating_not_tier_function :
    (estimateResultOf true [⟨"elimination_singles", 2⟩] 1).maxTier =
      (estimateResultOf false [⟨"elimination_singles", 2⟩] 1).maxTier ∧
    (estimateResultOf true [⟨"elimination_singles", 2⟩] 1).rating ≠
      (estimateResultOf false [⟨"elimination_singles", 2⟩] 1).rating := by
  constructor
  · rfl
  · decide

/-- C4 (amended): the score is the sum over logged steps of
`weight × cells_affected` with the claimed weights; the rating is a
function of the pair (abort flag, highest tier): it equals the claimed
tier map 1→Very Easy, …, 5→Extreme when the search was not aborted, and is
"Extreme / Unsolvable" when it was. -/
theorem difficulty_score_weighted_sum (aborted : Bool)
    (log log2 : List SolveStep) (n n2 : Nat)
    (htier : highestTier log = highestTier log2) :
    (estimateResultOf aborted log n).score =
      (log.map fun s => stepWeight s * (s.cellsAffected : ℚ)).sum ∧
    (estimateResultOf aborted log n).rating =
      (estimateResultOf aborted log2 n2).rating ∧
    (estimateResultOf false log n).rating = ratingOfTier (highestTier log) ∧
    (estimateResultOf true log n).rating = "Extreme / Unsolvable" := by
  refine ⟨?_, ?_, rfl, rfl⟩
  · show cumulativeEffort log = _
    rw [cumulativeEffort, cumulativeEffort_foldl]
    ring
  · show (if aborted then _ else ratingOfTier (highestTier log)) =
      (if aborted then _ else ratingOfTier (highestTier log2))
    rw [htier]

/-- Witness: two one-step logs at the same tier (3) receive the same
rating, and the score of the first is `5 × 3`. -/
theorem difficulty_score_weighted_sum_witness :
    (estimateResultOf false [⟨"hidden_singles", 3⟩] 1).score =
      (([⟨"hidden_singles", 3⟩] : List SolveStep).map
        fun s => stepWeight s * (s.cellsAffected : ℚ)).sum ∧
    (estimateResultOf false [⟨"hidden_singles", 3⟩] 1).rating =
      (estimateResultOf false [⟨"constraint_propagation", 7⟩] 2).rating ∧
    (estimateResultOf false [⟨"hidden_singles", 3⟩] 1).rating =
      ratingOfTier (highestTier [⟨"hidden_singles", 3⟩]) ∧
    (estimateResultOf true [⟨"hidden_singles", 3⟩] 1).rating =
      "Extreme / Unsolvable" :=
  difficulty_score_weighted_sum false [⟨"hidden_singles", 3⟩]
    [⟨"constraint_propagation", 7⟩] 1 2 (by decide)

/-- The mutable abort state of `KakuroDifficultyEstimator`:
`nodes_explored` and `search_aborted`. -/
structure LimitState where
  nodesExplored : Int
  searchAborted : Bool

/-- `is_limit_exceeded` (kakuro_cpp.h lines 758-774): sticky abort, then
`++nodes_explored > MAX_NODES` (5×10⁷), then — every 500 nodes — the
wall-clock test, whose outcome `elapsed.count() > TIME_LIMIT_SEC` is the
Boolean oracle `elapsedOver`.  Returns the new state and the result. -/
def isLimitExceeded (elapsedOver : Bool) (st : LimitState) :
    LimitState × Bool :=
  if st.searchAborted then (st, true)
  else if st.nodesExplored + 1 > 50000000 then
    (⟨st.nodesExplored + 1, true⟩, true)
  else if (st.nodesExplored + 1) % 500 = 0 ∧ elapsedOver = true then
    (⟨st.nodesExplored + 1, true⟩, true)
  else (⟨st.nodesExplored + 1, st.searchAborted⟩, false)

lemma isLimitExceeded_sticky (e : Bool) (st : LimitState)
    (h : st.searchAborted = true) : (isLimitExceeded e st).2 = true := by
  unfold isLimitExceeded
  rw [if_pos h]

/-- C6: the budget abort is total and sticky.  Whenever the node budget is
exceeded, or the per-500-nodes wall-clock test fires, or the flag was
already set, `is_limit_exceeded` reports true and leaves `search_aborted`
set, every later call short-circuits to true, and the assembled result
carries rating "Extreme / Unsolvable" and uniqueness
"Inconclusive (Timeout)". -/
theorem limit_abort_total (st : LimitState) (e e2 : Bool)
    (log : List SolveStep) (n : Nat)
    (hbudget : st.searchAborted = true ∨ st.nodesExplored + 1 > 50000000 ∨
      ((st.nodesExplored + 1) % 500 = 0 ∧ e = true)) :
    (isLimitExceeded e st).2 = true ∧
    (isLimitExceeded e st).1.searchAborted = true ∧
    (isLimitExceeded e2 (isLimitExceeded e st).1).2 = true ∧
    (estimateResultOf true log n).rating = "Extreme / Unsolvable" ∧
    (estimateResultOf true log n).uniqueness = "Inconclusive (Timeout)" := by
  have habort : (isLimitExceeded e st).2 = true ∧
      (isLimitExceeded e st).1.searchAborted = true := by
    unfold isLimitExceeded
    rcases hbudget with h | h | h
    · rw [if_pos h]
      exact ⟨rfl, h⟩
    · by_cases hs : st.searchAborted = true
      · rw [if_pos hs]
        exact ⟨rfl, hs⟩
      · rw [if_neg hs, if_pos h]
        exact ⟨rfl, rfl⟩
    · by_cases hs : st.searchAborted = true
      · rw [if_pos hs]
        exact ⟨rfl, hs⟩
      · rw [if_neg hs]
        by_cases hbig : st.nodesExplored + 1 > 50000000
        · rw [if_pos hbig]
          exact ⟨rfl, rfl⟩
        · rw [if_neg hbig, if_pos h]
          exact ⟨rfl, rfl⟩
  exact ⟨habort.1, habort.2, isLimitExceeded_sticky e2 _ habort.2, rfl, rfl⟩

/-- Witness: one past the node budget with the flag clear aborts, sticks,
and stamps the result strings. -/
theorem limit_abort_total_witness :
    (isLimitExceeded false ⟨50000000, false⟩).2 = true ∧
    (isLimitExceeded false ⟨50000000, false⟩).1.searchAborted = true ∧
    (isLimitExceeded true
      (isLimitExceeded false ⟨50000000, false⟩).1).2 = true ∧
    (estimateResultOf true [] 0).rating = "Extreme / Unsolvable" ∧
    (estimateResultOf true [] 0).uniqueness = "Inconclusive (Timeout)" :=
  limit_abort_total ⟨50000000, false⟩ false true [] 0 (by decide)

/-! ### C5: the partition oracles

`KakuroDifficultyEstimator::get_partitions` runs a backtracking closure
`bt(t, k, s)` with no bounds check on `(sum, len)`;
`CSPSolver::count_partitions` guards its recursion with an explicit bounds
check.  Both are embedded below; `bt`'s recursion is driven by a fuel
argument large enough for every input (each recursive call strictly
decreases `t` and recursion stops as soon as the budget runs out, returning
the empty list exactly as the exhausted loop does). -/

/-- The ascending `int` loop `for (int i = s; i <= e; ++i)`, as the list
of the next `n` integers starting at `x`. -/
def intRangeGo : Nat → Int → List Int
  | 0, _ => []
  | n + 1, x => x :: intRangeGo n (x + 1)

/-- The integers from `s` to `e` inclusive (empty when `s > e`). -/
def intRange (s e : Int) : List Int := intRangeGo (e + 1 - s).toNat s

/-- The backtracking closure `bt` of `get_partitions`: at `k = 0` emit the
current tuple when `t = 0`; otherwise loop `i` from `s` to 9, breaking as
soon as `i > t` (the `takeWhile`), and recurse with `t - i`, `k - 1`,
`i + 1` and the tuple extended by `i`. -/
def btGo : Nat → Int → Int → Int → List Int → List (List Int)
  | 0, _, _, _, _ => []
  | fuel + 1, t, k, s, cur =>
    if k = 0 then (if t = 0 then [cur] else [])
    else
      ((intRange s 9).takeWhile fun i => decide (i ≤ t)).foldr
        (fun i acc => btGo fuel (t - i) (k - 1) (i + 1) (cur ++ [i]) ++ acc)
        []

/-- `get_partitions(sum, len)`: `bt(sum, len, 1)` starting from the empty
tuple (the memoisation cache only replays this pure computation). -/
def getPartitions (sum len : Int) : List (List Int) :=
  btGo (sum.toNat + len.toNat + 1) sum len 1 []

/-- `CSPSolver::count_partitions_recursive`. -/
def countPartitionsRec : Nat → Int → Int → Int → (Int → Bool) → Int
  | 0, _, _, _, _ => 0
  | fuel + 1, rsum, rlen, minD, used =>
    if rlen = 0 then (if rsum = 0 then 1 else 0)
    else if rsum ≤ 0 ∨ 9 < minD then 0
    else
      let available := (intRange minD 9).filter fun x => !used x
      if (available.length : Int) < rlen then 0
      else if rsum < (available.take rlen.toNat).sum ∨
          (available.drop (available.length - rlen.toNat)).sum < rsum then 0
      else
        available.foldl
          (fun acc digit =>
            acc + countPartitionsRec fuel (rsum - digit) (rlen - 1)
              (digit + 1) (fun x => x == digit || used x))
          0

/-- `CSPSolver::count_partitions` with its explicit bounds check. -/
def countPartitions (targetSum length : Int) : Int :=
  if length ≤ 0 ∨ 9 < length ∨ targetSum ≤ 0 ∨ 45 < targetSum then 0
  else countPartitionsRec (targetSum.toNat + length.toNat + 1) targetSum
    length 1 (fun _ => false)

lemma mem_intRangeGo : ∀ (n : Nat) (x i : Int),
    i ∈ intRangeGo n x ↔ x ≤ i ∧ i < x + n := by
  intro n
  induction n with
  | zero =>
    intro x i
    simp [intRangeGo]
  | succ n ih =>
    intro x i
    simp only [intRangeGo, List.mem_cons, ih]
    push_cast
    omega

lemma mem_intRange {i s e : Int} : i ∈ intRange s e ↔ s ≤ i ∧ i ≤ e := by
  unfold intRange
  rw [mem_intRangeGo]
  omega

lemma mem_foldr_append {α β : Type} (f : α → List β) (q : β) :
    ∀ L : List α,
      (q ∈ L.foldr (fun i acc => f i ++ acc) []) ↔ ∃ i ∈ L, q ∈ f i := by
  intro L
  induction L with
  | nil => simp
  | cons a L ih => simp [List.mem_append, ih]

/-- Structure of every tuple produced by `bt`: it extends `cur` by a
strictly increasing run of digits from `[s, 9]` of length `k` summing to
`t`. -/
lemma btGo_mem (fuel : Nat) : ∀ (t k s : Int) (cur q : List Int),
    q ∈ btGo fuel t k s cur →
    ∃ tail : List Int, q = cur ++ tail ∧ tail.sum = t ∧
      (tail.length : Int) = k ∧ (∀ d ∈ tail, s ≤ d ∧ d ≤ 9) ∧
      tail.Chain' (· < ·) := by
  induction fuel with
  | zero =>
    intro t k s cur q hq
    simp [btGo] at hq
  | succ fuel ih =>
    intro t k s cur q hq
    simp only [btGo] at hq
    by_cases hk : k = 0
    · rw [if_pos hk] at hq
      by_cases ht : t = 0
      · rw [if_pos ht] at hq
        have hqc : q = cur := by simpa using hq
        exact ⟨[], by simp [hqc], by simp [ht], by simp [hk], by simp,
          List.chain'_nil⟩
      · rw [if_neg ht] at hq
        cases hq
    · rw [if_neg hk] at hq
      rw [mem_foldr_append] at hq
      obtain ⟨i, hi, hqi⟩ := hq
      have hit : i ≤ t := by
        have := List.mem_takeWhile_imp hi
        simpa using this
      have hir : i ∈ intRange s 9 :=
        (List.takeWhile_sublist _).subset hi
      obtain ⟨his, hi9⟩ := mem_intRange.mp hir
      obtain ⟨tail', hq', hsum, hlen, hbnd, hch⟩ :=
        ih (t - i) (k - 1) (i + 1) (cur ++ [i]) q hqi
      refine ⟨i :: tail', ?_, ?_, ?_, ?_, ?_⟩
      · rw [hq']
        simp
      · simp only [List.sum_cons]
        omega
      · simp only [List.length_cons]
        push_cast
        omega
      · intro d hd
        rcases List.mem_cons.mp hd with rfl | hd
        · exact ⟨his, hi9⟩
        · have := hbnd d hd
          constructor <;> omega
      · rw [List.chain'_cons']
        refine ⟨?_, hch⟩
        intro h hh
        have hmem : h ∈ tail' := List.mem_of_mem_head? hh
        have := (hbnd h hmem).1
        omega

/-- Every tuple returned by `get_partitions` is a strictly increasing list
of digits `1..9` of the requested length and sum. -/
lemma getPartitions_members (s l : Int) :
    ∀ p ∈ getPartitions s l, p.sum = s ∧ (p.length : Int) = l ∧
      (∀ d ∈ p, 1 ≤ d ∧ d ≤ 9) ∧ p.Chain' (· < ·) := by
  intro p hp
  obtain ⟨tail, hq, hsum, hlen, hbnd, hch⟩ :=
    btGo_mem (s.toNat + l.toNat + 1) s l 1 [] p hp
  rw [List.nil_append] at hq
  subst hq
  exact ⟨hsum, hlen, hbnd, hch⟩

lemma length_le_sum_of_one_le {p : List Int} :
    (∀ d ∈ p, 1 ≤ d) → (p.length : Int) ≤ p.sum := by
  induction p with
  | nil => intro _; simp
  | cons a t ih =>
    intro h
    have ha := h a (List.mem_cons_self a t)
    have ht := ih fun d hd => h d (List.mem_cons_of_mem a hd)
    simp only [List.length_cons, List.sum_cons]
    push_cast
    omega

/-- The nine digits as a finite set of integers. -/
def digitSet : Finset Int := {1, 2, 3, 4, 5, 6, 7, 8, 9}

/-- C5 (counterexample): `get_partitions(0, 0)` returns `[[]]`, not the
empty result, even though length 0 lies outside `[1, 9]`; the solver-side
`count_partitions(0, 0)` returns 0, so the two partition oracles disagree
on the claimed boundary. -/
theorem get_partitions_zero_zero :
    getPartitions 0 0 = [[]] ∧ getPartitions 0 0 ≠ [] ∧
      countPartitions 0 0 = 0 := by
  decide

/-- C5 (amended): apart from the single input `(0, 0)`, every `(sum, len)`
with `len ∉ [1, 9]` or `sum ∉ [1, 45]` produces the empty result from
`get_partitions`, and `count_partitions` returns 0 on its (slightly wider)
checked boundary. -/
theorem get_partitions_pure_boundary (s l : Int)
    (hout : l < 1 ∨ 9 < l ∨ s < 1 ∨ 45 < s) (hnz : ¬(s = 0 ∧ l = 0)) :
    getPartitions s l = [] ∧ countPartitions s l = 0 := by
  constructor
  · rw [List.eq_nil_iff_forall_not_mem]
    intro p hp
    obtain ⟨hsum, hlen, hbnd, hch⟩ := getPartitions_members s l p hp
    have hnd : p.Nodup :=
      (List.chain'_iff_pairwise.mp hch).imp fun h => ne_of_lt h
    have hsub : p.toFinset ⊆ digitSet := by
      intro d hd
      rw [List.mem_toFinset] at hd
      have := hbnd d hd
      have h1 := this.1
      have h9 := this.2
      unfold digitSet
      interval_cases d <;> decide
    have hlen9 : p.length ≤ 9 := by
      have h1 := List.toFinset_card_of_nodup hnd
      have h2 := Finset.card_le_card hsub
      have h3 : digitSet.card = 9 := by decide
      omega
    have hsum45 : p.sum ≤ 45 := by
      have h1 : p.toFinset.sum id = p.sum := by
        rw [List.sum_toFinset _ hnd, List.map_id]
      have h2 : p.toFinset.sum id ≤ digitSet.sum id :=
        Finset.sum_le_sum_of_subset_of_nonneg hsub (by
          intro i hi _
          have hb : (1 : Int) ≤ i ∧ i ≤ 9 := by
            revert hi
            unfold digitSet
            intro hi
            fin_cases hi <;> constructor <;> decide
          simp only [id]
          omega)
      have h3 : digitSet.sum id = 45 := by decide
      omega
    have hsl := length_le_sum_of_one_le fun d hd => (hbnd d hd).1
    have hl0 : (0 : Int) ≤ l := by omega
    have hp0 : p.length = 0 → p = [] := List.length_eq_zero.mp
    by_cases hlz : p.length = 0
    · have := hp0 hlz
      subst this
      simp only [List.sum_nil] at hsum
      simp only [List.length_nil, Nat.cast_zero] at hlen
      omega
    · omega
  · unfold countPartitions
    rw [if_pos (by omega)]

/-- Witness: a sum above 45 yields the empty result from both oracles. -/
theorem get_partitions_pure_boundary_witness :
    getPartitions 46 3 = [] ∧ countPartitions 46 3 = 0 :=
  get_partitions_pure_boundary 46 3 (by decide) (by decide)

/-! ### C8: the orchestrator's inner fill loop

`CSPSolver::attempt_fill_and_validate` iterates up to
`MAX_FILL_ATTEMPTS * MAX_REPAIR_ATTEMPTS = 500` times.  Each iteration's
interaction with the solver, the uniqueness checker, the estimator, the
repair machinery and the wall clock is captured by a per-iteration oracle
record; the control flow of the loop body (lines 164-323) is embedded
exactly. -/

/-- `enum class UniquenessResult`. -/
inductive UniquenessResult where
  | unique
  | multiple
  | inconclusive
deriving DecidableEq, Repr

/-- A learned `ValueConstraint` (cell and forbidden values). -/
abbrev ValueConstraint : Type := Pos × List Nat

/-- The outcome of everything one loop iteration consults:
`check_timeout` at the head, `solve_fill`'s success,
`has_high_global_ambiguity`, `perform_robust_uniqueness_check`'s verdict
and whether it produced an alternative solution, the estimator's
`solution_count == 1`, the second `check_timeout`, the constraint learned
from a solution difference (combining `alt_sol_opt` presence with a
nonempty difference set), and `repair_topology_robust`'s success. -/
structure FillIterOracle where
  timeout1 : Bool
  fillOk : Bool
  highAmbiguity : Bool
  uniqRes : UniquenessResult
  estSolCountOne : Bool
  timeout2 : Bool
  altPresent : Bool
  learned : Option ValueConstraint
  repairOk : Bool

/-- What one iteration of the fill loop does: return from the function, or
continue with updated `fills_for_this_topology` and
`cumulative_constraints`. -/
inductive FillStepRes where
  | ret (b : Bool)
  | cont (fills : Nat) (cons : List ValueConstraint)
deriving DecidableEq, Repr

/-- One iteration of the loop body of `attempt_fill_and_validate`. -/
def attemptFillStep (o : FillIterOracle) (fills : Nat)
    (cons : List ValueConstraint) : FillStepRes :=
  if o.timeout1 then .ret false
  else if o.fillOk = false then
    if cons = [] then .cont fills cons else .cont fills []
  else if o.highAmbiguity then .cont fills cons
  else if o.uniqRes = UniquenessResult.unique ∧ o.estSolCountOne = true then
    .ret true
  else if o.timeout2 then .ret false
  else if o.uniqRes = UniquenessResult.multiple ∨
      (o.uniqRes = UniquenessResult.unique ∧ o.estSolCountOne = false) then
    if fills + 1 < 100 then
      .cont (fills + 1)
        (match o.learned with
          | some c => cons ++ [c]
          | none => cons)
    else if o.altPresent = true ∧ o.repairOk = true then .cont 0 []
    else .ret false
  else .cont fills cons

/-- The loop, with the iteration budget as fuel and the iteration index
selecting the oracle. -/
def attemptFillGo (oracles : Nat → FillIterOracle) :
    Nat → Nat → Nat → List ValueConstraint → Bool
  | 0, _, _, _ => false
  | fuel + 1, i, fills, cons =>
    match attemptFillStep (oracles i) fills cons with
    | .ret b => b
    | .cont fills2 cons2 => attemptFillGo oracles fuel (i + 1) fills2 cons2

/-- `attempt_fill_and_validate`: 500 iterations starting with no learned
constraints. -/
def attemptFillAndValidate (oracles : Nat → FillIterOracle) : Bool :=
  attemptFillGo oracles 500 0 0 []

lemma attemptFillStep_fail_clears (o : FillIterOracle) (fills : Nat)
    (cons : List ValueConstraint)
    (ht : o.timeout1 = false) (hf : o.fillOk = false) :
    attemptFillStep o fills cons =
      FillStepRes.cont fills (if cons = [] then cons else []) := by
  unfold attemptFillStep
  rw [ht, hf]
  by_cases hc : cons = []
  · simp [hc]
  · simp [hc]

lemma attemptFillGo_fail (o : FillIterOracle)
    (ht : o.timeout1 = false) (hf : o.fillOk = false) :
    ∀ (fuel i fills : Nat),
      attemptFillGo (fun _ => o) fuel i fills [] = false := by
  intro fuel
  induction fuel with
  | zero => intro i fills; rfl
  | succ fuel ih =>
    intro i fills
    simp only [attemptFillGo, attemptFillStep_fail_clears o fills [] ht hf]
    exact ih (i + 1) fills

/-- The oracle of the counterexample run: the fill fails twice with no
learned constraints, then the third iteration produces a unique puzzle. -/
def c8oracle : Nat → FillIterOracle := fun i =>
  if i < 2 then
    ⟨false, false, false, UniquenessResult.inconclusive, false, false,
      false, none, false⟩
  else
    ⟨false, true, false, UniquenessResult.unique, true, false,
      false, none, false⟩

/-- C8 (counterexample): a fill failure with an empty forbidden list does
not abandon the topology — the loop simply retries it, and a later
iteration can still succeed on the same topology (the whole call returns
true after two consecutive empty-list failures). -/
theorem fill_empty_failure_not_abandoned :
    (c8oracle 0).fillOk = false ∧ (c8oracle 1).fillOk = false ∧
    attemptFillStep (c8oracle 0) 0 [] = FillStepRes.cont 0 [] ∧
    attemptFillAndValidate c8oracle = true := by
  decide

/-- C8 (amended): when the filler fails, a nonempty forbidden list is
cleared once and the fill retried; a failure with an already empty list
retries the same topology unchanged (it does not abandon it); only when
every one of the 500 budgeted iterations fails does the call give up and
report failure. -/
theorem fill_failure_retries (o : FillIterOracle) (fills : Nat)
    (cons : List ValueConstraint) (c0 : ValueConstraint)
    (ht : o.timeout1 = false) (hf : o.fillOk = false) :
    attemptFillStep o fills (c0 :: cons) = FillStepRes.cont fills [] ∧
    attemptFillStep o fills [] = FillStepRes.cont fills [] ∧
    attemptFillAndValidate (fun _ => o) = false := by
  refine ⟨?_, ?_, attemptFillGo_fail o ht hf 500 0 0⟩
  · rw [attemptFillStep_fail_clears o fills (c0 :: cons) ht hf]
    simp
  · rw [attemptFillStep_fail_clears o fills [] ht hf]
    simp

/-- Witness: a permanently failing oracle clears a one-element list,
retries on the empty list, and the call fails only after the full budget. -/
theorem fill_failure_retries_witness :
    attemptFillStep
        ⟨false, false, false, UniquenessResult.inconclusive, false, false,
          false, none, false⟩ 0 [(((0 : Int), (0 : Int)), [1])] =
      FillStepRes.cont 0 [] ∧
    attemptFillStep
        ⟨false, false, false, UniquenessResult.inconclusive, false, false,
          false, none, false⟩ 0 [] = FillStepRes.cont 0 [] ∧
    attemptFillAndValidate (fun _ =>
      ⟨false, false, false, UniquenessResult.inconclusive, false, false,
        false, none, false⟩) = false :=
  fill_failure_retries
    ⟨false, false, false, UniquenessResult.inconclusive, false, false,
      false, none, false⟩ 0 [] (((0 : Int), (0 : Int)), [1]) rfl rfl

/-! ### C10: fill failure is atomic on cell values

`CSPSolver::backtrack_fill` writes the board's `value` fields only in its
success leaf — after every white cell is assigned and (when a partition
preference is active and clues are not ignored) the assignment passes
`validate_partition_difficulty`.  The randomized domain ordering, the wall
clock and the partition validator are oracle parameters; the consistency
test is the real `isConsistentNumber`; the node budget and the
1000-node timeout cadence are embedded as in the source.  The recursion is
driven by fuel (the C++ recursion is bounded by its node budget); an
exhausted budget returns `false` with the state untouched, like every
other failing path. -/

/-- Pointwise update of a partial assignment (`assignment[var] = val` /
`assignment.erase(var)`). -/
def updateA (a : Pos → Option Nat) (p : Pos) (v : Option Nat) :
    Pos → Option Nat :=
  fun q => if q = p then v else a q

/-- `for (auto &[cell, val] : assignment) cell->value = val;` — the single
write site of `backtrack_fill`. -/
def writeAssignment (st : BState) (a : Pos → Option Nat) : BState :=
  { st with value := fun p =>
      match a p with
      | some v => some v
      | none => st.value p }

/-- Result of `backtrack_fill`: return value, board state, assignment and
node counter (the latter two are passed by reference in the C++). -/
abbrev FillResult : Type := Bool × BState × (Pos → Option Nat) × Nat

/-- The MRV scan of `backtrack_fill`: walk the white cells, skip assigned
ones, fail on an empty domain, track the cell of minimal domain, and stop
early once the minimum is 1.  Returns `none` for the dead-end
`return false`, otherwise the selected variable (if any). -/
def mrvFillGo (B : BStatic) (st : BState) (a : Pos → Option Nat)
    (ignoreClues : Bool) : List Pos → Option Pos → Nat → Option (Option Pos)
  | [], var, _ => some var
  | c :: rest, var, minD =>
    if a c = none then
      if getDomainSize B st (some a) c ignoreClues = 0 then none
      else if getDomainSize B st (some a) c ignoreClues < minD then
        if getDomainSize B st (some a) c ignoreClues = 1 then some (some c)
        else mrvFillGo B st a ignoreClues rest (some c)
          (getDomainSize B st (some a) c ignoreClues)
      else if minD = 1 then some var
      else mrvFillGo B st a ignoreClues rest var minD
    else mrvFillGo B st a ignoreClues rest var minD

/-- The `for (int val : domain)` loop of `backtrack_fill`: skip forbidden
values, test consistency, recurse (through `bt`), and on failure erase the
variable and continue with the threaded state. -/
def tryVals (B : BStatic) (ignoreClues : Bool)
    (forbidden : List ValueConstraint)
    (bt : BState → (Pos → Option Nat) → Nat → FillResult) (var : Pos) :
    List Nat → BState → (Pos → Option Nat) → Nat → FillResult
  | [], st, a, nc => (false, st, a, nc)
  | v :: rest, st, a, nc =>
    if forbidden.any (fun cons => decide (cons.1 = var ∧ v ∈ cons.2)) then
      tryVals B ignoreClues forbidden bt var rest st a nc
    else if isConsistentNumber B st a var v ignoreClues then
      match bt st (updateA a var (some v)) nc with
      | (true, st2, a2, nc2) => (true, st2, a2, nc2)
      | (false, st2, a2, nc2) =>
        tryVals B ignoreClues forbidden bt var rest st2
          (updateA a2 var none) nc2
    else tryVals B ignoreClues forbidden bt var rest st a nc

/-- `CSPSolver::backtrack_fill` (lines 435-577). -/
def backtrackFill (B : BStatic) (ignoreClues : Bool) (pref : String)
    (forbidden : List ValueConstraint)
    (domainOracle : Pos → (Pos → Option Nat) → List Nat)
    (timeoutOracle : Nat → Bool)
    (validateOk : (Pos → Option Nat) → Bool) (maxNodes : Int) :
    Nat → BState → (Pos → Option Nat) → Nat → FillResult
  | 0, st, a, nc => (false, st, a, nc)
  | fuel + 1, st, a, nc =>
    if (nc : Int) > maxNodes then (false, st, a, nc)
    else if (nc + 1) % 1000 = 0 ∧ timeoutOracle (nc + 1) = true then
      (false, st, a, nc + 1)
    else if B.whiteCells.filter (fun c => decide (a c = none)) = [] then
      if pref ≠ "" ∧ ignoreClues = false then
        if validateOk a = false then (false, st, a, nc + 1)
        else (true, writeAssignment st a, a, nc + 1)
      else (true, writeAssignment st a, a, nc + 1)
    else
      match mrvFillGo B st a ignoreClues B.whiteCells none 10 with
      | none => (false, st, a, nc + 1)
      | some none => (true, st, a, nc + 1)
      | some (some var) =>
        tryVals B ignoreClues forbidden
          (fun st2 a2 nc2 =>
            backtrackFill B ignoreClues pref forbidden domainOracle
              timeoutOracle validateOk maxNodes fuel st2 a2 nc2)
          var (domainOracle var a) st a (nc + 1)

/-- The forced-assignment preprocessing loop of `solve_fill`. -/
def applyForced (B : BStatic) (st : BState) (ignoreClues : Bool)
    (forbidden : List ValueConstraint) :
    List (Pos × Nat) → (Pos → Option Nat) → Option (Pos → Option Nat)
  | [], a => some a
  | (cell, v) :: rest, a =>
    if st.ctype cell = CellT.WHITE then
      if forbidden.any (fun cons => decide (cons.1 = cell ∧ v ∈ cons.2)) then
        none
      else if isConsistentNumber B st a cell v ignoreClues then
        applyForced B st ignoreClues forbidden rest (updateA a cell (some v))
      else none
    else applyForced B st ignoreClues forbidden rest a

/-- `CSPSolver::solve_fill`: forced-assignment preprocessing followed by
`backtrack_fill` on an otherwise empty assignment; returns the result and
the board state. -/
def solveFill (B : BStatic) (st : BState) (forced : List (Pos × Nat))
    (forbidden : List ValueConstraint) (ignoreClues : Bool) (pref : String)
    (domainOracle : Pos → (Pos → Option Nat) → List Nat)
    (timeoutOracle : Nat → Bool)
    (validateOk : (Pos → Option Nat) → Bool)
    (maxNodes : Int) (fuel : Nat) : Bool × BState :=
  match applyForced B st ignoreClues forbidden forced (fun _ => none) with
  | none => (false, st)
  | some a =>
    ((backtrackFill B ignoreClues pref forbidden domainOracle timeoutOracle
        validateOk maxNodes fuel st a 0).1,
      (backtrackFill B ignoreClues pref forbidden domainOracle timeoutOracle
        validateOk maxNodes fuel st a 0).2.1)

lemma tryVals_frame (B : BStatic) (ic : Bool)
    (forbidden : List ValueConstraint)
    (bt : BState → (Pos → Option Nat) → Nat → FillResult) (var : Pos)
    (hbt : ∀ st a nc, (bt st a nc).1 = false → (bt st a nc).2.1 = st) :
    ∀ (domain : List Nat) (st : BState) (a : Pos → Option Nat) (nc : Nat),
      (tryVals B ic forbidden bt var domain st a nc).1 = false →
      (tryVals B ic forbidden bt var domain st a nc).2.1 = st := by
  intro domain
  induction domain with
  | nil => intro st a nc _; rfl
  | cons v rest ih =>
    intro st a nc h
    simp only [tryVals] at h ⊢
    by_cases hf : (forbidden.any
        fun cons => decide (cons.1 = var ∧ v ∈ cons.2)) = true
    · rw [if_pos hf] at h ⊢
      exact ih st a nc h
    · rw [if_neg hf] at h ⊢
      by_cases hc : isConsistentNumber B st a var v ic = true
      · rw [if_pos hc] at h ⊢
        rcases hres : bt st (updateA a var (some v)) nc with ⟨b, st2, a2, nc2⟩
        rw [hres] at h
        cases b
        · have hst2 : st2 = st := by
            have hfr := hbt st (updateA a var (some v)) nc
            rw [hres] at hfr
            exact hfr rfl
          have h2 : (tryVals B ic forbidden bt var rest st2
              (updateA a2 var none) nc2).1 = false := h
          have h3 := ih st2 (updateA a2 var none) nc2 h2
          exact h3.trans hst2
        · exact absurd h (by simp)
      · rw [if_neg hc] at h ⊢
        exact ih st a nc h

lemma backtrackFill_frame (B : BStatic) (ic : Bool) (pref : String)
    (forbidden : List ValueConstraint)
    (domainOracle : Pos → (Pos → Option Nat) → List Nat)
    (timeoutOracle : Nat → Bool)
    (validateOk : (Pos → Option Nat) → Bool) (maxNodes : Int) :
    ∀ (fuel : Nat) (st : BState) (a : Pos → Option Nat) (nc : Nat),
      (backtrackFill B ic pref forbidden domainOracle timeoutOracle
        validateOk maxNodes fuel st a nc).1 = false →
      (backtrackFill B ic pref forbidden domainOracle timeoutOracle
        validateOk maxNodes fuel st a nc).2.1 = st := by
  intro fuel
  induction fuel with
  | zero => intro st a nc _; rfl
  | succ fuel ih =>
    intro st a nc h
    simp only [backtrackFill] at h ⊢
    by_cases h1 : (nc : Int) > maxNodes
    · rw [if_pos h1] at h ⊢
    · rw [if_neg h1] at h ⊢
      by_cases h2 : (nc + 1) % 1000 = 0 ∧ timeoutOracle (nc + 1) = true
      · rw [if_pos h2] at h ⊢
      · rw [if_neg h2] at h ⊢
        by_cases h3 : B.whiteCells.filter (fun c => decide (a c = none)) = []
        · rw [if_pos h3] at h ⊢
          by_cases h4 : pref ≠ "" ∧ ic = false
          · rw [if_pos h4] at h ⊢
            by_cases h5 : validateOk a = false
            · rw [if_pos h5] at h ⊢
            · rw [if_neg h5] at h
              simp at h
          · rw [if_neg h4] at h
            simp at h
        · rw [if_neg h3] at h ⊢
          rcases hm : mrvFillGo B st a ic B.whiteCells none 10 with _ | ov
          · rw [hm] at h
          · rcases ov with _ | var
            · rw [hm] at h
            · rw [hm] at h
              exact tryVals_frame B ic forbidden _ var
                (fun st2 a2 nc2 => ih st2 a2 nc2)
                (domainOracle var a) st a (nc + 1) h

/-- C10: fill failure is atomic with respect to cell values — whenever
`solve_fill` reports failure (for any board, forced assignments, forbidden
constraints, flags, domain ordering, timeout behaviour, validator verdict,
node budget and fuel), the board state it leaves behind is exactly the one
it was given; `value` fields are written only by the success leaf of
`backtrack_fill` after a complete assignment passes the final partition
validation. -/
theorem solve_fill_failure_atomic (B : BStatic) (st : BState)
    (forced : List (Pos × Nat)) (forbidden : List ValueConstraint)
    (ignoreClues : Bool) (pref : String)
    (domainOracle : Pos → (Pos → Option Nat) → List Nat)
    (timeoutOracle : Nat → Bool)
    (validateOk : (Pos → Option Nat) → Bool)
    (maxNodes : Int) (fuel : Nat)
    (h : (solveFill B st forced forbidden ignoreClues pref domainOracle
      timeoutOracle validateOk maxNodes fuel).1 = false) :
    (solveFill B st forced forbidden ignoreClues pref domainOracle
      timeoutOracle validateOk maxNodes fuel).2 = st := by
  unfold solveFill at h ⊢
  rcases ha : applyForced B st ignoreClues forbidden forced (fun _ => none)
    with _ | a
  · rw [ha] at h
  · rw [ha] at h
    exact backtrackFill_frame B ignoreClues pref forbidden domainOracle
      timeoutOracle validateOk maxNodes fuel st a 0 h

/-- A one-white-cell board for the atomicity witness. -/
def c10B : BStatic where
  whiteCells := [((1 : Int), (1 : Int))]
  sectorH := fun _ => none
  sectorV := fun _ => none
  sectorsH := []
  sectorsV := []

/-- Its cell fields: no values, no clues. -/
def c10St : BState where
  value := fun _ => none
  clueH := fun _ => none
  clueV := fun _ => none
  ctype := fun p => if p = (1, 1) then CellT.WHITE else CellT.BLOCK

/-- Witness: with an empty domain ordering the fill fails and leaves the
board state untouched. -/
theorem solve_fill_failure_atomic_witness :
    (solveFill c10B c10St [] [] false "" (fun _ _ => []) (fun _ => false)
      (fun _ => true) 100 3).2 = c10St :=
  solve_fill_failure_atomic c10B c10St [] [] false "" (fun _ _ => [])
    (fun _ => false) (fun _ => true) 100 3 (by decide)

/-! ### C2: `check_uniqueness` restores the board

`CSPSolver::check_uniqueness` backs up every white cell's value, clears
them, runs `solve_for_uniqueness` (which assigns and always un-assigns
white cells during its search), and finally overwrites every white cell
with its backed-up value.  The shuffled candidate order (a function of the
seed and the node counter) and the wall clock are oracles.  The claim's
precondition — every white cell carries a value — marks the domain on
which the C++ is well defined: `avoid_sol.at(...)` would throw for a white
cell that had no value, since the backup map only holds valued cells. -/

/-- Clear the values of the given cells (`c->value = std::nullopt`). -/
def clearWhites (st : BState) (ws : List Pos) : BState :=
  ws.foldl (fun s c => setVal s c none) st

/-- Restore the values of the given cells from the backup
(`c->value = original_sol.count(c) ? original_sol[c] : std::nullopt`). -/
def restoreWhites (st : BState) (ws : List Pos) (original : Pos → Option Nat) :
    BState :=
  ws.foldl (fun s c => setVal s c (original c)) st

/-- The MRV scan of `solve_for_uniqueness`: like the fill-phase scan but
keyed on the cells' committed values, with a null assignment map. -/
def mrvUniqGo (B : BStatic) (st : BState) :
    List Pos → Option Pos → Nat → Option (Option Pos)
  | [], var, _ => some var
  | c :: rest, var, minD =>
    if st.value c = none then
      if getDomainSize B st none c false = 0 then none
      else if getDomainSize B st none c false < minD then
        if getDomainSize B st none c false = 1 then some (some c)
        else mrvUniqGo B st rest (some c) (getDomainSize B st none c false)
      else if minD = 1 then some var
      else mrvUniqGo B st rest var minD
    else mrvUniqGo B st rest var minD

/-- The mutable state of `solve_for_uniqueness`: found solutions, the
board, the node counter, the timeout flag. -/
structure UniqState where
  found : List (Pos → Nat)
  st : BState
  nodeCount : Nat
  timedOut : Bool

/-- One candidate attempt of the search loop: set the variable, recurse
(through `sf`), and always clear the variable again. -/
def uniqAfter (sf : UniqState → UniqState) (var : Pos) (v : Nat)
    (s : UniqState) : UniqState :=
  match sf { s with st := setVal s.st var (some v) } with
  | s2 => { s2 with st := setVal s2.st var none }

/-- The `for (int v : vals)` loop of `solve_for_uniqueness`: try each valid
candidate, and stop as soon as a solution was recorded or the search timed
out. -/
def tryUniqVals (B : BStatic) (sf : UniqState → UniqState) (var : Pos) :
    List Nat → UniqState → UniqState
  | [], s => s
  | v :: rest, s =>
    if isValidMove B s.st none var v false then
      if ((uniqAfter sf var v s).found.isEmpty = false) ∨
          (uniqAfter sf var v s).timedOut = true then
        uniqAfter sf var v s
      else tryUniqVals B sf var rest (uniqAfter sf var v s)
    else tryUniqVals B sf var rest s

/-- `CSPSolver::solve_for_uniqueness` (lines 1211-1320).  `valsOrder`
models the shuffled candidate list (with the avoided value moved to the
end), as a function of the node counter; the seed is baked into the
oracle. -/
def solveForUniq (B : BStatic) (avoid : Pos → Option Nat) (maxNodes : Int)
    (valsOrder : Nat → List Nat) (timeoutOracle : Nat → Bool) :
    Nat → UniqState → UniqState
  | 0, s => s
  | fuel + 1, s =>
    if s.found.isEmpty = false then s
    else if (s.nodeCount : Int) > maxNodes then { s with timedOut := true }
    else if (s.nodeCount + 1) % 1000 = 0 ∧
        timeoutOracle (s.nodeCount + 1) = true then
      { s with nodeCount := s.nodeCount + 1, timedOut := true }
    else
      match mrvUniqGo B s.st B.whiteCells none 10 with
      | none => { s with nodeCount := s.nodeCount + 1 }
      | some none =>
        { s with
          nodeCount := s.nodeCount + 1
          found :=
            if B.whiteCells.any (fun c =>
                decide ((s.st.value c).getD 0 ≠ (avoid c).getD 0)) then
              s.found ++ [fun p => (s.st.value p).getD 0]
            else s.found }
      | some (some var) =>
        if 3 ≤ s.found.length then { s with nodeCount := s.nodeCount + 1 }
        else
          tryUniqVals B
            (solveForUniq B avoid maxNodes valsOrder timeoutOracle fuel)
            var (valsOrder (s.nodeCount + 1))
            { s with nodeCount := s.nodeCount + 1 }

/-- `CSPSolver::check_uniqueness` (lines 1173-1209): back up, clear, solve,
restore, and report. -/
def checkUniqueness (B : BStatic) (st : BState) (maxNodes : Int)
    (valsOrder : Nat → List Nat) (timeoutOracle : Nat → Bool) (fuel : Nat) :
    (UniquenessResult × Option (Pos → Nat)) × BState :=
  match solveForUniq B st.value maxNodes valsOrder timeoutOracle fuel
      ⟨[], clearWhites st B.whiteCells, 0, false⟩ with
  | s =>
    (match s.found with
      | sol :: _ => (UniquenessResult.multiple, some sol)
      | [] =>
        if s.timedOut then (UniquenessResult.inconclusive, none)
        else (UniquenessResult.unique, none),
      restoreWhites s.st B.whiteCells st.value)

/-- State relation used for the restoration proof: values outside the white
cells, and all clue and type fields, are untouched. -/
def outsidePreserved (whites : List Pos) (st st2 : BState) : Prop :=
  (∀ p, p ∉ whites → st2.value p = st.value p) ∧
  st2.clueH = st.clueH ∧ st2.clueV = st.clueV ∧ st2.ctype = st.ctype

lemma outsidePreserved_refl (whites : List Pos) (st : BState) :
    outsidePreserved whites st st :=
  ⟨fun _ _ => rfl, rfl, rfl, rfl⟩

lemma outsidePreserved_trans {whites : List Pos} {st1 st2 st3 : BState}
    (h1 : outsidePreserved whites st1 st2)
    (h2 : outsidePreserved whites st2 st3) :
    outsidePreserved whites st1 st3 :=
  ⟨fun p hp => (h2.1 p hp).trans (h1.1 p hp),
    h2.2.1.trans h1.2.1, h2.2.2.1.trans h1.2.2.1, h2.2.2.2.trans h1.2.2.2⟩

lemma outsidePreserved_setVal (whites : List Pos) (st : BState) (var : Pos)
    (v : Option Nat) (hvar : var ∈ whites) :
    outsidePreserved whites st (setVal st var v) := by
  refine ⟨?_, rfl, rfl, rfl⟩
  intro p hp
  have hne : p ≠ var := fun h => hp (h ▸ hvar)
  simp [setVal, hne]

lemma mrvUniqGo_mem (B : BStatic) (st : BState) :
    ∀ (l : List Pos) (var : Option Pos) (minD : Nat) (v : Pos),
      mrvUniqGo B st l var minD = some (some v) → v ∈ l ∨ var = some v := by
  intro l
  induction l with
  | nil =>
    intro var minD v h
    simp only [mrvUniqGo] at h
    right
    injection h
  | cons c rest ih =>
    intro var minD v h
    simp only [mrvUniqGo] at h
    by_cases h1 : st.value c = none
    · rw [if_pos h1] at h
      by_cases h2 : getDomainSize B st none c false = 0
      · rw [if_pos h2] at h
        cases h
      · rw [if_neg h2] at h
        by_cases h3 : getDomainSize B st none c false < minD
        · rw [if_pos h3] at h
          by_cases h4 : getDomainSize B st none c false = 1
          · rw [if_pos h4] at h
            have hcv : c = v := by
              injection h with h'
              injection h' with h''
            subst hcv
            exact Or.inl (List.mem_cons_self c rest)
          · rw [if_neg h4] at h
            rcases ih (some c) _ v h with hm | he
            · exact Or.inl (List.mem_cons_of_mem c hm)
            · have hcv : c = v := by injection he
              subst hcv
              exact Or.inl (List.mem_cons_self c rest)
        · rw [if_neg h3] at h
          by_cases h5 : minD = 1
          · rw [if_pos h5] at h
            right
            injection h
          · rw [if_neg h5] at h
            rcases ih var _ v h with hm | he
            · exact Or.inl (List.mem_cons_of_mem c hm)
            · exact Or.inr he
    · rw [if_neg h1] at h
      rcases ih var _ v h with hm | he
      · exact Or.inl (List.mem_cons_of_mem c hm)
      · exact Or.inr he

lemma uniqAfter_preserves (B : BStatic) (sf : UniqState → UniqState)
    (var : Pos) (v : Nat)
    (hsf : ∀ s : UniqState, outsidePreserved B.whiteCells s.st (sf s).st)
    (hvar : var ∈ B.whiteCells) (s : UniqState) :
    outsidePreserved B.whiteCells s.st ((uniqAfter sf var v s).st) := by
  unfold uniqAfter
  exact outsidePreserved_trans
    (outsidePreserved_trans
      (outsidePreserved_setVal B.whiteCells s.st var (some v) hvar)
      (hsf { s with st := setVal s.st var (some v) }))
    (outsidePreserved_setVal B.whiteCells _ var none hvar)

lemma tryUniqVals_preserves (B : BStatic) (sf : UniqState → UniqState)
    (var : Pos)
    (hsf : ∀ s : UniqState, outsidePreserved B.whiteCells s.st (sf s).st)
    (hvar : var ∈ B.whiteCells) :
    ∀ (vals : List Nat) (s : UniqState),
      outsidePreserved B.whiteCells s.st ((tryUniqVals B sf var vals s).st) := by
  intro vals
  induction vals with
  | nil => intro s; exact outsidePreserved_refl _ _
  | cons v rest ih =>
    intro s
    simp only [tryUniqVals]
    by_cases hc : isValidMove B s.st none var v false = true
    · rw [if_pos hc]
      have hu := uniqAfter_preserves B sf var v hsf hvar s
      by_cases hstop : ((uniqAfter sf var v s).found.isEmpty = false) ∨
          (uniqAfter sf var v s).timedOut = true
      · rw [if_pos hstop]
        exact hu
      · rw [if_neg hstop]
        exact outsidePreserved_trans hu (ih (uniqAfter sf var v s))
    · rw [if_neg hc]
      exact ih s

lemma solveForUniq_preserves (B : BStatic) (avoid : Pos → Option Nat)
    (maxNodes : Int) (valsOrder : Nat → List Nat)
    (timeoutOracle : Nat → Bool) :
    ∀ (fuel : Nat) (s : UniqState),
      outsidePreserved B.whiteCells s.st
        ((solveForUniq B avoid maxNodes valsOrder timeoutOracle fuel s).st) := by
  intro fuel
  induction fuel with
  | zero => intro s; exact outsidePreserved_refl _ _
  | succ fuel ih =>
    intro s
    simp only [solveForUniq]
    by_cases h1 : s.found.isEmpty = false
    · rw [if_pos h1]
      exact outsidePreserved_refl _ _
    · rw [if_neg h1]
      by_cases h2 : (s.nodeCount : Int) > maxNodes
      · rw [if_pos h2]
        exact outsidePreserved_refl _ _
      · rw [if_neg h2]
        by_cases h3 : (s.nodeCount + 1) % 1000 = 0 ∧
            timeoutOracle (s.nodeCount + 1) = true
        · rw [if_pos h3]
          exact outsidePreserved_refl _ _
        · rw [if_neg h3]
          rcases hm : mrvUniqGo B s.st B.whiteCells none 10 with _ | ov
          · exact outsidePreserved_refl _ _
          · rcases ov with _ | var
            · exact outsidePreserved_refl _ _
            · show outsidePreserved B.whiteCells s.st
                ((if 3 ≤ s.found.length then
                    { s with nodeCount := s.nodeCount + 1 }
                  else
                    tryUniqVals B
                      (solveForUniq B avoid maxNodes valsOrder timeoutOracle
                        fuel)
                      var (valsOrder (s.nodeCount + 1))
                      { s with nodeCount := s.nodeCount + 1 } : UniqState)).st
              by_cases h5 : 3 ≤ s.found.length
              · rw [if_pos h5]
                exact outsidePreserved_refl _ _
              · rw [if_neg h5]
                have hvar : var ∈ B.whiteCells := by
                  rcases mrvUniqGo_mem B s.st B.whiteCells none 10 var hm
                    with hmem | habs
                  · exact hmem
                  · cases habs
                exact tryUniqVals_preserves B _ var (fun s2 => ih s2) hvar
                  (valsOrder (s.nodeCount + 1))
                  { s with nodeCount := s.nodeCount + 1 }

lemma clearWhites_value (ws : List Pos) :
    ∀ (st : BState) (p : Pos),
      (clearWhites st ws).value p =
        if p ∈ ws then none else st.value p := by
  induction ws with
  | nil => intro st p; simp [clearWhites]
  | cons w ws ih =>
    intro st p
    show (clearWhites (setVal st w none) ws).value p = _
    rw [ih]
    by_cases hp : p ∈ ws
    · rw [if_pos hp, if_pos (List.mem_cons_of_mem w hp)]
    · rw [if_neg hp]
      by_cases hw : p = w
      · subst hw
        rw [if_pos (List.mem_cons_self p ws)]
        simp [setVal]
      · rw [if_neg (by simp [List.mem_cons, hw, hp])]
        simp [setVal, hw]

lemma restoreWhites_value (original : Pos → Option Nat) (ws : List Pos) :
    ∀ (st : BState) (p : Pos),
      (restoreWhites st ws original).value p =
        if p ∈ ws then original p else st.value p := by
  induction ws with
  | nil => intro st p; simp [restoreWhites]
  | cons w ws ih =>
    intro st p
    show (restoreWhites (setVal st w (original w)) ws original).value p = _
    rw [ih]
    by_cases hp : p ∈ ws
    · rw [if_pos hp, if_pos (List.mem_cons_of_mem w hp)]
    · rw [if_neg hp]
      by_cases hw : p = w
      · subst hw
        rw [if_pos (List.mem_cons_self p ws)]
        simp [setVal]
      · rw [if_neg (by simp [List.mem_cons, hw, hp])]
        simp [setVal, hw]

lemma clearWhites_clue (ws : List Pos) :
    ∀ st : BState, (clearWhites st ws).clueH = st.clueH ∧
      (clearWhites st ws).clueV = st.clueV ∧
      (clearWhites st ws).ctype = st.ctype := by
  induction ws with
  | nil => intro st; exact ⟨rfl, rfl, rfl⟩
  | cons w ws ih =>
    intro st
    show (clearWhites (setVal st w none) ws).clueH = _ ∧ _
    exact ih (setVal st w none)

lemma restoreWhites_clue (original : Pos → Option Nat) (ws : List Pos) :
    ∀ st : BState, (restoreWhites st ws original).clueH = st.clueH ∧
      (restoreWhites st ws original).clueV = st.clueV ∧
      (restoreWhites st ws original).ctype = st.ctype := by
  induction ws with
  | nil => intro st; exact ⟨rfl, rfl, rfl⟩
  | cons w ws ih =>
    intro st
    show (restoreWhites (setVal st w (original w)) ws original).clueH = _ ∧ _
    exact ih (setVal st w (original w))

/-- C2: `check_uniqueness` restores the board to the state it was given.
For every board whose white cells all carry values (the claim's
precondition, and the domain on which the C++ lookups are total), after
the call every cell's value field equals its value before the call, and no
clue or cell-type field is modified — for every node budget, candidate
ordering, wall-clock behaviour and search depth. -/
theorem check_uniqueness_restores (B : BStatic) (st : BState)
    (maxNodes : Int) (valsOrder : Nat → List Nat)
    (timeoutOracle : Nat → Bool) (fuel : Nat)
    (hvals : ∀ c ∈ B.whiteCells, st.value c ≠ none) :
    (checkUniqueness B st maxNodes valsOrder timeoutOracle fuel).2.value =
      st.value ∧
    (checkUniqueness B st maxNodes valsOrder timeoutOracle fuel).2.clueH =
      st.clueH ∧
    (checkUniqueness B st maxNodes valsOrder timeoutOracle fuel).2.clueV =
      st.clueV ∧
    (checkUniqueness B st maxNodes valsOrder timeoutOracle fuel).2.ctype =
      st.ctype := by
  have hsolve := solveForUniq_preserves B st.value maxNodes valsOrder
    timeoutOracle fuel ⟨[], clearWhites st B.whiteCells, 0, false⟩
  have hclear := clearWhites_clue B.whiteCells st
  have hrestore := restoreWhites_clue st.value B.whiteCells
    (solveForUniq B st.value maxNodes valsOrder timeoutOracle fuel
      ⟨[], clearWhites st B.whiteCells, 0, false⟩).st
  refine ⟨?_, ?_, ?_, ?_⟩
  · funext p
    show (restoreWhites _ B.whiteCells st.value).value p = st.value p
    rw [restoreWhites_value]
    by_cases hp : p ∈ B.whiteCells
    · rw [if_pos hp]
    · rw [if_neg hp]
      have h1 := hsolve.1 p hp
      rw [h1]
      show (clearWhites st B.whiteCells).value p = st.value p
      rw [clearWhites_value, if_neg hp]
  · show (restoreWhites _ B.whiteCells st.value).clueH = st.clueH
    rw [hrestore.1, hsolve.2.1, hclear.1]
  · show (restoreWhites _ B.whiteCells st.value).clueV = st.clueV
    rw [hrestore.2.1, hsolve.2.2.1, hclear.2.1]
  · show (restoreWhites _ B.whiteCells st.value).ctype = st.ctype
    rw [hrestore.2.2, hsolve.2.2.2, hclear.2.2]

/-- A one-white-cell board carrying a value for the restoration witness. -/
def c2St : BState where
  value := fun p => if p = (1, 1) then some 5 else none
  clueH := fun p => if p = (1, 0) then some 5 else none
  clueV := fun p => if p = (0, 1) then some 5 else none
  ctype := fun p => if p = (1, 1) then CellT.WHITE else CellT.BLOCK

/-- Witness: on the concrete valued board, the state after
`check_uniqueness` equals the state before it. -/
theorem check_uniqueness_restores_witness :
    (checkUniqueness c10B c2St 10 (fun _ => [1, 2, 3, 4, 5, 6, 7, 8, 9])
      (fun _ => false) 3).2.value = c2St.value ∧
    (checkUniqueness c10B c2St 10 (fun _ => [1, 2, 3, 4, 5, 6, 7, 8, 9])
      (fun _ => false) 3).2.clueH = c2St.clueH ∧
    (checkUniqueness c10B c2St 10 (fun _ => [1, 2, 3, 4, 5, 6, 7, 8, 9])
      (fun _ => false) 3).2.clueV = c2St.clueV ∧
    (checkUniqueness c10B c2St 10 (fun _ => [1, 2, 3, 4, 5, 6, 7, 8, 9])
      (fun _ => false) 3).2.ctype = c2St.ctype :=
  check_uniqueness_restores c10B c2St 10 (fun _ => [1, 2, 3, 4, 5, 6, 7, 8, 9])
    (fun _ => false) 3 (by decide)

end Kakuro
